import Mathlib

/-!
# Verification of the smandacikpus versioned document store

Shallow embedding of `src/server/datacontroller.py` and of the diff engine it
uses (CPython `difflib`: `ndiff` = `Differ.compare`, and `restore`), together
with proofs of the specified properties.

Conventions of the embedding:
* Python `str` is Lean `String`; sequences are Lean `List`s; machine ints are
  `Nat`/`Int` (no overflow is relevant here).
* Python floats appearing in `difflib` ratio computations (`2.0 * M / T`
  compared against the literals `0.74` and `0.75`) are modelled by exact
  rationals `ℚ`.  The comparisons only select which alignment the differ
  synchronises on; every theorem below holds for any alignment choice, so the
  (hairline) difference between binary floating point and exact rational
  comparison cannot affect any statement proved here.
* The cryptographic digest `hashlib.sha256` and the wall clock
  `datetime.now` are opaque to the program logic; operations take the hash
  function `sha : String → String` and the timestamp `now : String` as
  explicit parameters, and every theorem is proved for all values of these
  parameters.
* Functions that recurse on a non-structural measure carry an explicit `fuel`
  argument used purely as a termination device; callers pass fuel that
  provably dominates the measure, and the lemmas are proved for every
  sufficient fuel (or, where possible, for all fuel).
-/

namespace Py

/-- The characters on which Python `str.splitlines` splits
(`\n \r \v \f \x1c \x1d \x1e \x85    `, with `\r\n` counting as a
single break). -/
def isLineBreak (c : Char) : Bool :=
  c = '\n' || c = '\r' || c = '\x0b' || c = '\x0c' ||
  c = '\x1c' || c = '\x1d' || c = '\x1e' || c = '\x85' ||
  c.toNat = 0x2028 || c.toNat = 0x2029

/-- Core of Python `str.splitlines(keepends=False)`: accumulate the current
line (reversed) and emit it at each line break (`\r\n` counting as one);
at the end of input the pending line is emitted only if non-empty (no
trailing empty line for input ending in a break, no line at all for empty
input). -/
def splitlinesAux : List Char → List Char → List (List Char)
  | acc, [] => if acc = [] then [] else [acc.reverse]
  | acc, '\r' :: '\n' :: rest => acc.reverse :: splitlinesAux [] rest
  | acc, c :: rest =>
    if isLineBreak c then acc.reverse :: splitlinesAux [] rest
    else splitlinesAux (c :: acc) rest

/-- Python `text.splitlines(keepends=False)`. -/
def splitlines (s : String) : List String :=
  (splitlinesAux [] s.data).map String.mk

/-- Python `str.isspace` (true exactly for the code points Python treats as
whitespace). -/
def pyIsSpace (c : Char) : Bool :=
  (0x9 ≤ c.toNat && c.toNat ≤ 0xd) ||
  (0x1c ≤ c.toNat && c.toNat ≤ 0x20) ||
  c.toNat = 0x85 || c.toNat = 0xa0 || c.toNat = 0x1680 ||
  (0x2000 ≤ c.toNat && c.toNat ≤ 0x200a) ||
  c.toNat = 0x2028 || c.toNat = 0x2029 || c.toNat = 0x202f ||
  c.toNat = 0x205f || c.toNat = 0x3000

/-- Python `str.rstrip()` on a character list (strip trailing whitespace). -/
def rstrip (l : List Char) : List Char :=
  (l.reverse.dropWhile pyIsSpace).reverse

/-- Python `str.split()` with no argument: split on runs of whitespace,
discarding empty fields. -/
def pySplit (s : String) : List String :=
  ((s.data.splitOnP pyIsSpace).filter (· ≠ [])).map String.mk

end Py

namespace Difflib

/-!
## `difflib.SequenceMatcher`

Generic over the element type `α` (instantiated at `String` for line-level
matching inside `Differ.compare` and at `Char` for intraline matching inside
`Differ._fancy_replace`).
-/

variable {α : Type} [DecidableEq α]

/-- A `Match(a=besti, b=bestj, size=bestsize)` triple. -/
structure Best where
  besti : Nat
  bestj : Nat
  bestsize : Nat
  deriving Repr, DecidableEq

/-- All indices `j` (ascending) with `b[j] = x`: the raw `b2j` mapping built
by `SequenceMatcher.__chain_b` before junk/popular purging. -/
def b2jAll (b : List α) (x : α) : List Nat :=
  (List.range b.length).filter (fun j => decide (b.get? j = some x))

/-- `SequenceMatcher.__chain_b`'s purged `b2j` as a function: junk elements
and (when `autojunk` applies and `len(b) >= 200`) popular elements map to no
indices. -/
def b2j (isjunk : α → Bool) (autojunk : Bool) (b : List α) (x : α) : List Nat :=
  if isjunk x then []
  else if autojunk && decide (200 ≤ b.length) &&
      decide (b.length / 100 + 1 < (b2jAll b x).length) then []
  else b2jAll b x

/-- `elt in self.bjunk` (the junk elements of `b`). -/
def isbjunk (isjunk : α → Bool) (b : List α) (x : α) : Bool :=
  isjunk x && decide (x ∈ b)

/-- Inner loop of `find_longest_match` for one fixed `i`: walk the (ascending)
index list `b2j[a[i]]` restricted to `[blo, bhi)` (the `continue`/`break`
in the source), building the new `j2len` dictionary and updating the best
match.  `j2len` maps `j` to the length of the longest match ending at
`(i-1, j)`; a fresh dictionary per `i` is modelled by starting from the
constant-0 function. -/
def flmInner (i : Nat) (j2len : Nat → Nat) :
    List Nat → (Nat → Nat) → Best → ((Nat → Nat) × Best)
  | [], newj2len, st => (newj2len, st)
  | j :: js, newj2len, st =>
    -- Python `j2len.get(j-1, 0)`: key -1 (when j = 0) is absent, giving 0.
    let k := (if j = 0 then 0 else j2len (j - 1)) + 1
    let newj2len' := fun j' => if j' = j then k else newj2len j'
    -- Python `i-k+1` / `j-k+1`; written `i+1-k` so that ℕ subtraction cannot
    -- truncate (the match of length k ending at (i, j) has k ≤ i+1, k ≤ j+1).
    let st' := if st.bestsize < k then ⟨i + 1 - k, j + 1 - k, k⟩ else st
    flmInner i j2len js newj2len' st'

/-- Outer loop of `find_longest_match` over `i ∈ [alo, ahi)`. -/
def flmLoop (a : List α) (b2jf : α → List Nat) (blo bhi : Nat) :
    List Nat → (Nat → Nat) → Best → Best
  | [], _, st => st
  | i :: is, j2len, st =>
    let js := match a.get? i with
      | some ai => (b2jf ai).filter (fun j => decide (blo ≤ j) && decide (j < bhi))
      | none => []
    let (newj2len, st') := flmInner i j2len js (fun _ => 0) st
    flmLoop a b2jf blo bhi is newj2len st'

/-- One of the four `while` extension loops of `find_longest_match`, extending
the match downwards; `junkSide` selects between the non-junk pass and the
junk pass.  Structural recursion on `besti` (which strictly decreases). -/
def extendLo (a b : List α) (isjunk : α → Bool) (junkSide : Bool)
    (alo blo : Nat) : Nat → Nat → Nat → Best
  | 0, bestj, bestsize => ⟨0, bestj, bestsize⟩
  | besti + 1, bestj, bestsize =>
    let cond :=
      decide (alo < besti + 1) && decide (blo < bestj) &&
      (match b.get? (bestj - 1) with
       | some y => (isbjunk isjunk b y = junkSide : Bool) &&
           decide (a.get? besti = some y)
       | none => false)
    if cond then extendLo a b isjunk junkSide alo blo besti (bestj - 1) (bestsize + 1)
    else ⟨besti + 1, bestj, bestsize⟩

/-- One of the four `while` extension loops of `find_longest_match`, extending
the match upwards.  `room` is the number of slots left below `ahi`
(`ahi - (besti + bestsize)`), used as structural fuel: the loop condition
fails exactly when the room is exhausted, so the fuel never runs out early. -/
def extendHi (a b : List α) (isjunk : α → Bool) (junkSide : Bool)
    (ahi bhi besti bestj : Nat) : Nat → Nat → Nat
  | 0, bestsize => bestsize
  | room + 1, bestsize =>
    let cond :=
      decide (besti + bestsize < ahi) && decide (bestj + bestsize < bhi) &&
      (match b.get? (bestj + bestsize) with
       | some y => (isbjunk isjunk b y = junkSide : Bool) &&
           decide (a.get? (besti + bestsize) = some y)
       | none => false)
    if cond then extendHi a b isjunk junkSide ahi bhi besti bestj room (bestsize + 1)
    else bestsize

/-- `SequenceMatcher.find_longest_match(alo, ahi, blo, bhi)`. -/
def find_longest_match (isjunk : α → Bool) (autojunk : Bool) (a b : List α)
    (alo ahi blo bhi : Nat) : Best :=
  let st0 : Best := ⟨alo, blo, 0⟩
  let st1 := flmLoop a (b2j isjunk autojunk b) blo bhi
    (List.range' alo (ahi - alo)) (fun _ => 0) st0
  -- Extend the best by non-junk elements on each end, then by junk.
  let st2 := extendLo a b isjunk false alo blo st1.besti st1.bestj st1.bestsize
  let s3 := extendHi a b isjunk false ahi bhi st2.besti st2.bestj
    (ahi - (st2.besti + st2.bestsize)) st2.bestsize
  let st4 := extendLo a b isjunk true alo blo st2.besti st2.bestj s3
  let s5 := extendHi a b isjunk true ahi bhi st4.besti st4.bestj
    (ahi - (st4.besti + st4.bestsize)) st4.bestsize
  ⟨st4.besti, st4.bestj, s5⟩

/-- Recursive core of `get_matching_blocks` (the queue in the source is an
explicit work-list formulation of this recursion; the subsequent
`matching_blocks.sort()` restores exactly this left-to-right order, see
`mergeSort` below).  `fuel` dominates `(ahi - alo) + (bhi - blo)`; with the
fuel passed by `get_matching_blocks` it never runs out. -/
def matchingBlocksRec (isjunk : α → Bool) (autojunk : Bool) (a b : List α) :
    Nat → Nat → Nat → Nat → Nat → List Best
  | 0, _, _, _, _ => []
  | fuel + 1, alo, ahi, blo, bhi =>
    let m := find_longest_match isjunk autojunk a b alo ahi blo bhi
    if m.bestsize = 0 then []
    else
      (if alo < m.besti ∧ blo < m.bestj then
        matchingBlocksRec isjunk autojunk a b fuel alo m.besti blo m.bestj
       else []) ++
      [m] ++
      (if m.besti + m.bestsize < ahi ∧ m.bestj + m.bestsize < bhi then
        matchingBlocksRec isjunk autojunk a b fuel
          (m.besti + m.bestsize) ahi (m.bestj + m.bestsize) bhi
       else [])

/-- Python tuple comparison `(i, j, k) <= (i', j', k')` used by
`matching_blocks.sort()`. -/
def blockLE (x y : Best) : Bool :=
  decide (x.besti < y.besti) ||
  (decide (x.besti = y.besti) &&
    (decide (x.bestj < y.bestj) ||
      (decide (x.bestj = y.bestj) && decide (x.bestsize ≤ y.bestsize))))

/-- The adjacent-block collapsing pass of `get_matching_blocks`
(`non_adjacent` accumulation); `(i1, j1, k1)` is the pending block, initially
`(0, 0, 0)`. -/
def collapseAdjacent : Nat → Nat → Nat → List Best → List Best
  | i1, j1, k1, [] => if k1 ≠ 0 then [⟨i1, j1, k1⟩] else []
  | i1, j1, k1, ⟨i2, j2, k2⟩ :: rest =>
    if i1 + k1 = i2 ∧ j1 + k1 = j2 then collapseAdjacent i1 j1 (k1 + k2) rest
    else (if k1 ≠ 0 then [⟨i1, j1, k1⟩] else []) ++ collapseAdjacent i2 j2 k2 rest

/-- `SequenceMatcher.get_matching_blocks()`. -/
def get_matching_blocks (isjunk : α → Bool) (autojunk : Bool) (a b : List α) :
    List Best :=
  let la := a.length
  let lb := b.length
  let blocks := (matchingBlocksRec isjunk autojunk a b (la + lb + 1)
    0 la 0 lb).mergeSort blockLE
  collapseAdjacent 0 0 0 blocks ++ [⟨la, lb, 0⟩]

/-- Opcode tags of `get_opcodes`. -/
inductive Tag | replace | delete | insert | equal
  deriving Repr, DecidableEq

/-- One `(tag, i1, i2, j1, j2)` opcode. -/
structure Opcode where
  tag : Tag
  a1 : Nat
  a2 : Nat
  b1 : Nat
  b2 : Nat
  deriving Repr, DecidableEq

/-- The loop body of `get_opcodes`, walking the matching blocks with the
cursor `(i, j)`. -/
def opcodesLoop : Nat → Nat → List Best → List Opcode
  | _, _, [] => []
  | i, j, ⟨ai, bj, size⟩ :: rest =>
    (if i < ai ∧ j < bj then [⟨.replace, i, ai, j, bj⟩]
     else if i < ai then [⟨.delete, i, ai, j, bj⟩]
     else if j < bj then [⟨.insert, i, ai, j, bj⟩]
     else []) ++
    (if size ≠ 0 then [⟨.equal, ai, ai + size, bj, bj + size⟩] else []) ++
    opcodesLoop (ai + size) (bj + size) rest

/-- `SequenceMatcher.get_opcodes()`. -/
def get_opcodes (isjunk : α → Bool) (autojunk : Bool) (a b : List α) :
    List Opcode :=
  opcodesLoop 0 0 (get_matching_blocks isjunk autojunk a b)

/-!
### Ratios

`_calculate_ratio` and the three ratio methods, with floats modelled as exact
rationals (see the header comment).
-/

/-- `difflib._calculate_ratio`. -/
def calcRatio (nmatches length : Nat) : ℚ :=
  if length ≠ 0 then 2 * (nmatches : ℚ) / (length : ℚ) else 1

/-- `SequenceMatcher.ratio()`. -/
def ratio (isjunk : α → Bool) (autojunk : Bool) (a b : List α) : ℚ :=
  calcRatio ((get_matching_blocks isjunk autojunk a b).map Best.bestsize).sum
    (a.length + b.length)

/-- Loop of `SequenceMatcher.quick_ratio()`: `avail` tracks, per element, the
`b`-count not yet consumed by earlier `a`-elements (an `Option Int`-valued
map models the `avail` dict, `none` meaning "key absent"). -/
def quickRatioLoop (b : List α) : List α → (α → Option Int) → Nat → Nat
  | [], _, nmatches => nmatches
  | elt :: rest, avail, nmatches =>
    let numb : Int := match avail elt with
      | some v => v
      | none => ((b.filter (fun y => decide (y = elt))).length : Int)
    let avail' := fun y => if y = elt then some (numb - 1) else avail y
    quickRatioLoop b rest avail' (if 0 < numb then nmatches + 1 else nmatches)

/-- `SequenceMatcher.quick_ratio()`. -/
def quick_ratio (a b : List α) : ℚ :=
  calcRatio (quickRatioLoop b a (fun _ => none) 0) (a.length + b.length)

/-- `SequenceMatcher.real_quick_ratio()`. -/
def real_quick_ratio (a b : List α) : ℚ :=
  calcRatio (min a.length b.length) (a.length + b.length)

/-!
## `difflib.Differ` and `difflib.ndiff`

`ndiff(a, b)` is `Differ(linejunk=None, charjunk=IS_CHARACTER_JUNK).compare(a, b)`.
The line-level `SequenceMatcher` therefore has no junk predicate, and the
intraline (character-level) cruncher uses `IS_CHARACTER_JUNK`; both use the
default `autojunk=True`.
-/

/-- `difflib.IS_CHARACTER_JUNK`: a blank or a tab. -/
def IS_CHARACTER_JUNK (c : Char) : Bool := c = ' ' || c = '\t'

/-- `Differ._dump(tag, x, lo, hi)`: emit `"<tag> <line>"` for each line of
`x[lo:hi]`. -/
def dump (tag : Char) (x : List String) (lo hi : Nat) : List String :=
  (List.range' lo (hi - lo)).map (fun i => String.mk [tag, ' '] ++ x.getD i "")

/-- `Differ._plain_replace`: dump the shorter block first. -/
def plain_replace (a : List String) (alo ahi : Nat) (b : List String)
    (blo bhi : Nat) : List String :=
  if bhi - blo < ahi - alo then dump '+' b blo bhi ++ dump '-' a alo ahi
  else dump '-' a alo ahi ++ dump '+' b blo bhi

/-- State of the best-pair search loop in `Differ._fancy_replace`:
`best_ratio` (initially `0.74`), the best pair indices (unbound in the
source until first assignment; modelled as `0`, and only read under the
invariant that an assignment happened), and `eqij` = the first identical
pair `(eqi, eqj)` if any. -/
structure FancySel where
  best_ratio : ℚ
  best_i : Nat
  best_j : Nat
  eqij : Option (Nat × Nat)

/-- Body of the double loop in `Differ._fancy_replace` for one pair
`(j, i)`. -/
def fancyScanStep (a b : List String) (st : FancySel) (j i : Nat) : FancySel :=
  let bj := b.getD j ""
  let ai := a.getD i ""
  if ai = bj then
    match st.eqij with
    | none => { st with eqij := some (i, j) }
    | some _ => st
  else
    if real_quick_ratio ai.data bj.data > st.best_ratio ∧
        quick_ratio ai.data bj.data > st.best_ratio ∧
        ratio IS_CHARACTER_JUNK true ai.data bj.data > st.best_ratio then
      { st with best_ratio := ratio IS_CHARACTER_JUNK true ai.data bj.data,
                best_i := i, best_j := j }
    else st

/-- The `for j in range(blo, bhi): for i in range(alo, ahi):` search of
`Differ._fancy_replace`. -/
def fancyScan (a : List String) (alo ahi : Nat) (b : List String)
    (blo bhi : Nat) : FancySel :=
  (List.range' blo (bhi - blo)).foldl
    (fun st j => (List.range' alo (ahi - alo)).foldl
      (fun st' i => fancyScanStep a b st' j i) st)
    ⟨74 / 100, 0, 0, none⟩

/-- `difflib._keep_original_ws`. -/
def keep_original_ws (s tags : List Char) : List Char :=
  (s.zip tags).map (fun p => if p.2 = ' ' && Py.pyIsSpace p.1 then p.1 else p.2)

/-- `Differ._qformat`: the `- aline / ? atags / + bline / ? btags` quad
(the `?` hint lines carry a trailing `"\n"` in the source even for
`keepends=False` input lines). -/
def qformat (aline bline : String) (atags btags : List Char) : List String :=
  let atags' := Py.rstrip (keep_original_ws aline.data atags)
  let btags' := Py.rstrip (keep_original_ws bline.data btags)
  ["- " ++ aline] ++
  (if atags' ≠ [] then ["? " ++ String.mk atags' ++ "\n"] else []) ++
  ["+ " ++ bline] ++
  (if btags' ≠ [] then ["? " ++ String.mk btags' ++ "\n"] else [])

/-- Intraline marking of the synch pair in `Differ._fancy_replace`: build
`atags`/`btags` from the character-level opcodes and format the quad. -/
def intraline (aelt belt : String) : List String :=
  let ops := get_opcodes IS_CHARACTER_JUNK true aelt.data belt.data
  let tags := ops.foldl (fun (p : List Char × List Char) op =>
    let la := op.a2 - op.a1
    let lb := op.b2 - op.b1
    match op.tag with
    | .replace => (p.1 ++ List.replicate la '^', p.2 ++ List.replicate lb '^')
    | .delete => (p.1 ++ List.replicate la '-', p.2)
    | .insert => (p.1, p.2 ++ List.replicate lb '+')
    | .equal => (p.1 ++ List.replicate la ' ', p.2 ++ List.replicate lb ' '))
    ([], [])
  qformat aelt belt tags.1 tags.2

mutual

/-- `Differ._fancy_replace`.  `fuel` strictly dominates
`(ahi - alo) + (bhi - blo)` at every call the program makes (the measure
shrinks by at least two per recursion level while the fuel shrinks by one),
so the fuel-exhausted base case is unreachable; it is set to the plain
replace, which keeps every lemma below true for all fuel. -/
def fancy_replace (fuel : Nat) (a : List String) (alo ahi : Nat)
    (b : List String) (blo bhi : Nat) : List String :=
  match fuel with
  | 0 => plain_replace a alo ahi b blo bhi
  | fuel + 1 =>
    let sel := fancyScan a alo ahi b blo bhi
    if sel.best_ratio < 3 / 4 then
      match sel.eqij with
      | none => plain_replace a alo ahi b blo bhi
      | some (eqi, eqj) =>
        -- synch on the identical pair
        fancy_helper fuel a alo eqi b blo eqj ++
        ["  " ++ a.getD eqi ""] ++
        fancy_helper fuel a (eqi + 1) ahi b (eqj + 1) bhi
    else
      -- synch on the close pair, with intraline marking
      fancy_helper fuel a alo sel.best_i b blo sel.best_j ++
      intraline (a.getD sel.best_i "") (b.getD sel.best_j "") ++
      fancy_helper fuel a (sel.best_i + 1) ahi b (sel.best_j + 1) bhi

/-- `Differ._fancy_helper`. -/
def fancy_helper (fuel : Nat) (a : List String) (alo ahi : Nat)
    (b : List String) (blo bhi : Nat) : List String :=
  if alo < ahi then
    if blo < bhi then fancy_replace fuel a alo ahi b blo bhi
    else dump '-' a alo ahi
  else if blo < bhi then dump '+' b blo bhi
  else []

end

/-- The dispatch on one line-level opcode in `Differ.compare`'s loop. -/
def opcodeLines (a b : List String) (op : Opcode) : List String :=
  match op.tag with
  | .replace => fancy_replace (a.length + b.length + 1) a op.a1 op.a2 b op.b1 op.b2
  | .delete => dump '-' a op.a1 op.a2
  | .insert => dump '+' b op.b1 op.b2
  | .equal => dump ' ' a op.a1 op.a2

/-- `Differ.compare(a, b)` with `linejunk = None`,
`charjunk = IS_CHARACTER_JUNK` (the `ndiff` defaults). -/
def compare (a b : List String) : List String :=
  (get_opcodes (fun _ => false) true a b).flatMap (opcodeLines a b)

/-- `difflib.ndiff(a, b)` (with the default junk parameters). -/
def ndiff (a b : List String) : List String := compare a b

/-- The filtering core of `difflib.restore`: keep lines whose first two
characters (`line[:2]`) are `"  "` or the given tag, stripped of the
prefix. -/
def restoreTag (tag : List Char) (delta : List String) : List String :=
  delta.filterMap fun line =>
    if line.data.take 2 = [' ', ' '] ∨ line.data.take 2 = tag then
      some (String.mk (line.data.drop 2))
    else none

/-- `difflib.restore(delta, which)`; `none` models the `ValueError` raised
for a `which` other than 1 or 2. -/
def restore (delta : List String) (which : Int) : Option (List String) :=
  if which = 1 then some (restoreTag ['-', ' '] delta)
  else if which = 2 then some (restoreTag ['+', ' '] delta)
  else none

/-!
### Specification predicates for the correctness development
-/

/-- The slice `x[lo:hi]` exactly as the differ reads it (index by index
through `getD`). -/
def mapGetD (x : List String) (lo hi : Nat) : List String :=
  (List.range' lo (hi - lo)).map (fun i => x.getD i "")

/-- Specification of `find_longest_match`: an empty result sits at
`(alo, blo)`; a non-empty result lies inside the queried rectangle and
matches element by element. -/
def MatchSpec (a b : List α) (alo ahi blo bhi : Nat) (st : Best) : Prop :=
  (st.bestsize = 0 → st.besti = alo ∧ st.bestj = blo) ∧
  (st.bestsize ≠ 0 →
    alo ≤ st.besti ∧ st.besti + st.bestsize ≤ ahi ∧
    blo ≤ st.bestj ∧ st.bestj + st.bestsize ≤ bhi ∧
    ∀ t < st.bestsize,
      ∃ x, a.get? (st.besti + t) = some x ∧ b.get? (st.bestj + t) = some x)

/-- Loop invariant of the `j2len` dictionary: after processing row `i - 1`,
`f j` is the length of a diagonal run of matches ending at `(i - 1, j)`
that starts at or after `(alo, blo)` and stays below `bhi`. -/
def ChainsBelow (a b : List α) (alo blo bhi i : Nat) (f : Nat → Nat) : Prop :=
  ∀ j, f j ≠ 0 →
    j < bhi ∧ blo ≤ j ∧ blo + f j ≤ j + 1 ∧ alo + f j ≤ i ∧
    ∀ t < f j, ∃ x, a.get? (i - 1 - t) = some x ∧ b.get? (j - t) = some x

/-- Chain-validity of a matching-block list relative to a cursor `(i, j)`:
blocks are ascending and each matches element by element. -/
def Chain (a b : List α) : Nat → Nat → List Best → Prop
  | _, _, [] => True
  | i, j, blk :: rest =>
    i ≤ blk.besti ∧ j ≤ blk.bestj ∧
    (∀ t < blk.bestsize,
      ∃ x, a.get? (blk.besti + t) = some x ∧ b.get? (blk.bestj + t) = some x) ∧
    Chain a b (blk.besti + blk.bestsize) (blk.bestj + blk.bestsize) rest

/-- Final `a`-cursor after walking a block list. -/
def chainEndA : Nat → List Best → Nat
  | i, [] => i
  | _, blk :: rest => chainEndA (blk.besti + blk.bestsize) rest

/-- Final `b`-cursor after walking a block list. -/
def chainEndB : Nat → List Best → Nat
  | j, [] => j
  | _, blk :: rest => chainEndB (blk.bestj + blk.bestsize) rest

/-- Invariant of the search-loop state in `Differ._fancy_replace`: the best
ratio never drops below its initial `0.74`; once it exceeds `0.74` the best
pair has been assigned and lies in the scanned rectangle; and a recorded
identical pair lies in the rectangle and is indeed identical. -/
def ScanInv (a b : List String) (alo ahi blo bhi : Nat) (st : FancySel) :
    Prop :=
  74 / 100 ≤ st.best_ratio ∧
  (74 / 100 < st.best_ratio →
    alo ≤ st.best_i ∧ st.best_i < ahi ∧ blo ≤ st.best_j ∧ st.best_j < bhi) ∧
  ∀ i j, st.eqij = some (i, j) →
    alo ≤ i ∧ i < ahi ∧ blo ≤ j ∧ j < bhi ∧ a.getD i "" = b.getD j ""

/-- A character list free of Python line-break characters. -/
def BreakFreeL (l : List Char) : Prop := ∀ c ∈ l, Py.isLineBreak c = false

/-- A string free of Python line-break characters (as every element of a
`splitlines` result is). -/
def BreakFree (s : String) : Prop := BreakFreeL s.data

/-- Shape of every line emitted by `ndiff` on break-free input lines: a
two-character tag prefix followed by a break-free payload, where a `"? "`
hint line additionally carries one trailing `"\n"`. -/
def NdiffLineOK (s : String) : Prop :=
  (∃ c x, (c = '-' ∨ c = '+' ∨ c = ' ') ∧ s.data = c :: ' ' :: x ∧
    BreakFreeL x) ∨
  (∃ ts, s.data = '?' :: ' ' :: (ts ++ ['\n']) ∧ BreakFreeL ts)

end Difflib

namespace DC

/-!
## `src/server/datacontroller.py`

The version store.  One page directory is a `PageFS` value; absence of the
whole directory is modelled by `Option PageFS` at the call boundary.  The
hash function `sha` (for `sha256_of_text`) and the timestamp `now` (for
`now_iso()`) are explicit parameters (see the header comment).
-/

/-- `zero_pad(n, width=3)` = `str(n).zfill(width)`. -/
def zero_pad (n : Nat) (width : Nat := 3) : String :=
  let s := toString n
  String.mk (List.replicate (width - s.length) '0') ++ s

/-- `meta.json` contents as written by `init_page` and updated by
`commit_diff` / `rebuild_latest`. -/
structure Meta where
  uuid : String
  title : String
  author : String
  genre : String
  date : String
  version : Nat
  baseHash : String
  latestHash : Option String
  diffCount : Nat
  createdAt : String
  updatedAt : String
  deriving Repr, DecidableEq

/-- `diffs/<NNN>.json` sidecar contents. -/
structure DiffMeta where
  index : Nat
  file : String
  author : String
  message : String
  createdAt : String
  diffHash : String
  deriving Repr, DecidableEq

/-- One page directory: `base.md`, `latest.md` (possibly absent), the
`diffs/<NNN>.diff` payloads keyed by the integer value of the stem, their
sidecars, and `meta.json`. -/
structure PageFS where
  baseText : String
  latestText : Option String
  diffs : List (Nat × String)
  diffMetas : List (Nat × DiffMeta)
  meta : Meta
  deriving Repr, DecidableEq

/-- Errors of the version store (`FileNotFoundError` in the source). -/
inductive DCError | notFound
  deriving Repr, DecidableEq

/-- `_next_diff_index(diffs_dir)`: 1 when the directory is missing or holds
no numbered `.diff` files, else `max + 1`. -/
def next_diff_index (diffs : List (Nat × String)) : Nat :=
  if diffs = [] then 1 else (diffs.map Prod.fst).foldl max 0 + 1

/-- `_sorted_diff_files(diffs_dir)`: the diff files sorted by integer stem. -/
def sorted_diffs (diffs : List (Nat × String)) : List (Nat × String) :=
  diffs.mergeSort (fun p q => decide (p.1 ≤ q.1))

/-- `apply_diffs_to_text(base_text, diff_file_paths)`: split the base into
lines, replay each diff file's content through `difflib.restore(·, 2)`
(which is `restoreTag "+ "`), and rejoin with a trailing newline when any
line remains. -/
def apply_diffs_to_text (base_text : String) (diff_texts : List String) : String :=
  let text_lines := diff_texts.foldl
    (fun lines d => Difflib.restoreTag ['+', ' '] (Py.splitlines d))
    (Py.splitlines base_text)
  String.intercalate "\n" text_lines ++ (if text_lines ≠ [] then "\n" else "")

/-- `init_page(title, author, genre, base_text, id_)`.  The source never
checks for an existing directory: `ensure_dir(diffs_dir)` passes
`exist_ok=True`, `base.md`/`latest.md`/`meta.json` are overwritten, and any
existing `diffs/` payloads survive.  `prior` is the page directory already
present under the chosen id, if any. -/
def init_page (sha : String → String) (now : String)
    (title author genre base_text id_ : String) (prior : Option PageFS) :
    PageFS :=
  { baseText := base_text
    latestText := some base_text
    diffs := match prior with | some st => st.diffs | none => []
    diffMetas := match prior with | some st => st.diffMetas | none => []
    meta :=
      { uuid := id_
        title := title
        author := author
        -- `genre or "article"`
        genre := if genre = "" then "article" else genre
        date := now
        version := 0
        baseHash := sha base_text
        latestHash := some (sha base_text)
        diffCount := 0
        createdAt := now
        updatedAt := now } }

/-- `rebuild_latest` on an existing page directory: replay base + all diffs
in index order, atomically replace `latest.md`, set `latestHash`,
`updatedAt`. -/
def rebuild_latest (sha : String → String) (now : String) (st : PageFS) :
    PageFS :=
  let new_text := apply_diffs_to_text st.baseText ((sorted_diffs st.diffs).map Prod.snd)
  { st with
    latestText := some new_text
    meta := { st.meta with latestHash := some (sha new_text), updatedAt := now } }

/-- The part of `commit_diff` before the `rebuild_latest(id_)` call (source
lines 237–269): compute the ndiff delta of the current latest (falling back
to `base.md` when `latest.md` is absent) against `new_text`, persist the
`.diff`/`.json` pair at the next index, and update the page metadata with
`latestHash = None`.  Returns the new state and `diff_file.name`. -/
def commit_persist (sha : String → String) (now : String) (st : PageFS)
    (new_text author message : String) : PageFS × String :=
  let old_text := st.latestText.getD st.baseText
  let old_lines := Py.splitlines old_text
  let new_lines := Py.splitlines new_text
  let diff_text := String.intercalate "\n" (Difflib.ndiff old_lines new_lines)
  let diff_hash := sha diff_text
  let idx := next_diff_index st.diffs
  let fname := zero_pad idx ++ ".diff"
  ({ st with
      diffs := st.diffs ++ [(idx, diff_text)]
      diffMetas := st.diffMetas ++
        [(idx, ⟨idx, fname, author, message, now, diff_hash⟩)]
      meta := { st.meta with
        diffCount := st.meta.diffCount + 1
        version := st.meta.diffCount + 1
        latestHash := none
        updatedAt := now } },
   fname)

/-- `commit_diff(id_, new_text, author, message)`: `FileNotFoundError` when
the page directory does not exist, else persist the delta and rebuild. -/
def commit_diff (sha : String → String) (now : String)
    (page : Option PageFS) (new_text author message : String) :
    Except DCError (PageFS × String) :=
  match page with
  | none => .error .notFound
  | some st =>
    let (st1, fname) := commit_persist sha now st new_text author message
    .ok (rebuild_latest sha now st1, fname)

/-- `view_version(id_, index)` on an existing page directory. -/
def view_version (st : PageFS) (index : Option Int) : String :=
  let diff_files :=
    match index with
    | none => sorted_diffs st.diffs
    | some k => if k ≤ 0 then [] else (sorted_diffs st.diffs).take k.toNat
  apply_diffs_to_text st.baseText (diff_files.map Prod.snd)

/-- The canonical trailing-newline form that `apply_diffs_to_text` produces:
lines rejoined by `"\n"` plus a final newline when non-empty. -/
def normText (s : String) : String :=
  String.intercalate "\n" (Py.splitlines s) ++
    (if Py.splitlines s ≠ [] then "\n" else "")

/-- A text already in the canonical form of `normText`. -/
def IsNormal (s : String) : Prop := normText s = s

/-- `commit_diff` on an existing page, as a total function (the source's
commit on an existing directory never fails). -/
def commitOk (sha : String → String) (now : String) (st : PageFS)
    (new_text author message : String) : PageFS :=
  rebuild_latest sha now (commit_persist sha now st new_text author message).1

/-- Page states reachable through the public API from `init_page` on a fresh
directory, committing and rebuilding with arbitrary inputs and timestamps. -/
inductive Reached (sha : String → String) : PageFS → Prop
  | init (now title author genre base_text id_ : String) :
      Reached sha (init_page sha now title author genre base_text id_ none)
  | commit (st st' : PageFS) (now new_text author message fname : String) :
      Reached sha st →
      commit_diff sha now (some st) new_text author message = .ok (st', fname) →
      Reached sha st'
  | rebuild (st : PageFS) (now : String) :
      Reached sha st → Reached sha (rebuild_latest sha now st)

/-!
## Index & search layer (`pages_index`)
-/

/-- One row of the `pages_index` table
(`UUID, GENRE, AUTHOR, DATE_CREATED, PREVIEW, PREFIX`). -/
structure IndexRow where
  uuid : String
  genre : String
  author : String
  dateCreated : String
  preview : String
  pfx : String
  deriving Repr, DecidableEq

/-- SQLite errors surfaced by the embedded queries
(`sqlite3.OperationalError: no such column: ...`). -/
inductive SqlError | noSuchColumn (name : String)
  deriving Repr, DecidableEq

/-- ASCII lowercasing (SQLite identifier lookup and `LIKE` are
case-insensitive for ASCII only). -/
def asciiLower (s : String) : String := String.mk (s.data.map Char.toLower)

/-- Column-name resolution against the `pages_index` schema created by
`_ensure_pages_index_table` (SQLite identifier lookup is
case-insensitive). -/
def resolveCol (name : String) : Option (IndexRow → String) :=
  if asciiLower name = "uuid" then some IndexRow.uuid
  else if asciiLower name = "genre" then some IndexRow.genre
  else if asciiLower name = "author" then some IndexRow.author
  else if asciiLower name = "date_created" then some IndexRow.dateCreated
  else if asciiLower name = "preview" then some IndexRow.preview
  else if asciiLower name = "prefix" then some IndexRow.pfx
  else none

/-- SQLite `value LIKE '%' || q || '%'` (ASCII-case-insensitive substring
containment). -/
def likeMatch (v q : String) : Bool :=
  decide ((asciiLower q).data <:+: (asciiLower v).data)

/-- `ORDER BY DATE_CREATED DESC` (SQLite BINARY collation on UTF-8 text
coincides with code-point lexicographic order; the sort is stable like the
B-tree scan). -/
def sortByDateDesc (rows : List IndexRow) : List IndexRow :=
  rows.mergeSort (fun r s => decide (s.dateCreated ≤ r.dateCreated))

/-- `LIMIT ? OFFSET ?` with SQLite semantics: a negative limit means
unlimited, a negative offset means 0. -/
def applyLimitOffset (rows : List IndexRow) (limit offset : Int) :
    List IndexRow :=
  let dropped := rows.drop offset.toNat
  if limit < 0 then dropped else dropped.take limit.toNat

/-- `listPage(offset, limit, query)`.  With a non-empty query the source
builds `WHERE title LIKE ? OR author LIKE ?`, but `pages_index` has no
`title` column, so SQLite raises `OperationalError("no such column:
title")` when the count query is executed. -/
def listPage (table : List IndexRow) (offset limit : Int) (query : String) :
    Except SqlError (List IndexRow × Nat) :=
  if query ≠ "" then
    match resolveCol "title", resolveCol "author" with
    | some tcol, some acol =>
      let keep := fun r => likeMatch (tcol r) query || likeMatch (acol r) query
      .ok (applyLimitOffset (sortByDateDesc (table.filter keep)) limit offset,
           (table.filter keep).length)
    | _, _ => .error (.noSuchColumn "title")
  else
    .ok (applyLimitOffset (sortByDateDesc table) limit offset, table.length)

/-- The on-disk inputs of the indexers for one page directory. -/
structure PageDir where
  metaJson : Option Meta
  latestMd : Option String

/-- `" ".join(content.split()[:PREVIEWWORD])`. -/
def preview_of (previewWords : Nat) (content : String) : String :=
  String.intercalate " " ((Py.pySplit content).take previewWords)

/-- The `pages_index` row an indexer computes for a page directory under
shard folder `pfx`. -/
def rowOf (previewWords : Nat) (pfx : String) (meta : Meta)
    (content : String) : IndexRow :=
  { uuid := meta.uuid
    genre := meta.genre
    author := meta.author
    dateCreated := meta.createdAt
    preview := preview_of previewWords content
    pfx := pfx }

/-- `insertPage(page_path)`:
`INSERT ... SELECT ... WHERE NOT EXISTS (SELECT 1 ... WHERE UUID = ?)` —
create-if-absent; an existing row (conflicting UUID) is left untouched and
the call still returns `True`.  Missing `meta.json` or `latest.md` returns
`False` with no change. -/
def insertPage (previewWords : Nat) (table : List IndexRow) (pfx : String)
    (page : PageDir) : List IndexRow × Bool :=
  match page.metaJson with
  | none => (table, false)
  | some meta =>
    match page.latestMd with
    | none => (table, false)
    | some content =>
      let row := rowOf previewWords pfx meta content
      if table.any (fun r => decide (r.uuid = row.uuid)) then (table, true)
      else (table ++ [row], true)

/-- The `INSERT ... ON CONFLICT(UUID) DO UPDATE SET ...` upsert performed by
`indexToDB` for one page: update the existing row in place, else append. -/
def upsertRow (table : List IndexRow) (row : IndexRow) : List IndexRow :=
  if table.any (fun r => decide (r.uuid = row.uuid)) then
    table.map (fun r => if r.uuid = row.uuid then row else r)
  else table ++ [row]

/-- `indexToDB(folder_path)`: walk the shard folders; every page directory
with both `meta.json` and `latest.md` is upserted (counted), others are
silently skipped.  Returns the new table and the printed total. -/
def indexToDB (previewWords : Nat) (table : List IndexRow)
    (pages : List (String × PageDir)) : List IndexRow × Nat :=
  pages.foldl
    (fun acc pg =>
      match pg.2.metaJson, pg.2.latestMd with
      | some meta, some content =>
        (upsertRow acc.1 (rowOf previewWords pg.1 meta content), acc.2 + 1)
      | _, _ => acc)
    (table, 0)

/-- The delta text a commit writes: the `ndiff` of the current latest
(falling back to `base.md`) against the new text, joined by `"\n"`. -/
def diff_text_of (st : PageFS) (new_text : String) : String :=
  String.intercalate "\n" (Difflib.ndiff
    (Py.splitlines (st.latestText.getD st.baseText)) (Py.splitlines new_text))

/-- One commit chain input: `(now, newText, author, message)`. -/
def Commit : Type := String × String × String × String

/-- Page state after replaying a list of commits through `commit_diff`
(each always succeeds on an existing directory). -/
def chainState (sha : String → String) (st0 : PageFS) : List Commit → PageFS
  | [] => st0
  | c :: cs => chainState sha (commitOk sha c.1 st0 c.2.1 c.2.2.1 c.2.2.2) cs

end DC

/-!
# Theorems

## Correctness of the diff engine: `restore ∘ ndiff` round trip (per side)
-/

namespace Difflib

section MatcherProofs

variable {α : Type}

theorem mem_b2jAll [DecidableEq α] {b : List α} {x : α} {j : Nat} (h : j ∈ b2jAll b x) :
    b.get? j = some x := by
  simp only [b2jAll, List.mem_filter, decide_eq_true_eq] at h
  exact h.2

theorem mem_b2j [DecidableEq α] {isjunk : α → Bool} {autojunk : Bool} {b : List α} {x : α}
    {j : Nat} (h : j ∈ b2j isjunk autojunk b x) : b.get? j = some x := by
  unfold b2j at h
  split at h
  · simp at h
  · split at h
    · simp at h
    · exact mem_b2jAll h

/-- Reindex a diagonal run of matches ending at `(i, j)` into a block
starting at `(i + 1 - k, j + 1 - k)`. -/
theorem chain_flip {a b : List α} {i j k : Nat}
    (hk : ∀ t < k, ∃ x, a.get? (i - t) = some x ∧ b.get? (j - t) = some x)
    (hki : k ≤ i + 1) (hkj : k ≤ j + 1) :
    ∀ t < k, ∃ x, a.get? (i + 1 - k + t) = some x ∧
      b.get? (j + 1 - k + t) = some x := by
  intro t ht
  obtain ⟨x, h1, h2⟩ := hk (k - 1 - t) (by omega)
  refine ⟨x, ?_, ?_⟩
  · rw [show i + 1 - k + t = i - (k - 1 - t) by omega]; exact h1
  · rw [show j + 1 - k + t = j - (k - 1 - t) by omega]; exact h2

theorem flmInner_spec [DecidableEq α] {a b : List α} {alo ahi blo bhi i : Nat}
    {j2len : Nat → Nat}
    (hj2 : ChainsBelow a b alo blo bhi i j2len)
    (hialo : alo ≤ i) (hiahi : i < ahi) :
    ∀ (js : List Nat) (nf : Nat → Nat) (st : Best),
      (∀ j ∈ js, blo ≤ j ∧ j < bhi ∧
        ∃ x, a.get? i = some x ∧ b.get? j = some x) →
      ChainsBelow a b alo blo bhi (i + 1) nf →
      MatchSpec a b alo ahi blo bhi st →
      ChainsBelow a b alo blo bhi (i + 1) (flmInner i j2len js nf st).1 ∧
      MatchSpec a b alo ahi blo bhi (flmInner i j2len js nf st).2 := by
  intro js
  induction js with
  | nil =>
    intro nf st _ hnf hst
    simpa [flmInner] using ⟨hnf, hst⟩
  | cons j js ih =>
    intro nf st hjs hnf hst
    obtain ⟨hblo, hbhi, x, hai, hbj⟩ := hjs j (List.mem_cons_self _ _)
    rw [flmInner]
    set k := (if j = 0 then 0 else j2len (j - 1)) + 1 with hk
    -- the new diagonal run of length k ends at (i, j)
    have hrun : (∀ t < k, ∃ x, a.get? (i - t) = some x ∧
        b.get? (j - t) = some x) ∧ alo + k ≤ i + 1 ∧ blo + k ≤ j + 1 := by
      rcases Nat.eq_zero_or_pos j with hj0 | hjpos
      · subst hj0
        have : k = 1 := by simp [hk]
        rw [this]
        refine ⟨?_, by omega, by omega⟩
        intro t ht
        interval_cases t
        exact ⟨x, by simpa using hai, by simpa using hbj⟩
      · have hkval : k = j2len (j - 1) + 1 := by
          simp [hk, Nat.pos_iff_ne_zero.mp hjpos]
        rcases Nat.eq_zero_or_pos (j2len (j - 1)) with hc0 | hcpos
        · rw [hkval, hc0]
          refine ⟨?_, by omega, by omega⟩
          intro t ht
          interval_cases t
          exact ⟨x, by simpa using hai, by simpa using hbj⟩
        · obtain ⟨hmbhi, hmblo, hmrange, hmalo, hmchain⟩ :=
            hj2 (j - 1) (by omega)
          rw [hkval]
          refine ⟨?_, by omega, by omega⟩
          intro t ht
          rcases Nat.eq_zero_or_pos t with ht0 | htpos
          · subst ht0
            exact ⟨x, by simpa using hai, by simpa using hbj⟩
          · obtain ⟨y, hy1, hy2⟩ := hmchain (t - 1) (by omega)
            refine ⟨y, ?_, ?_⟩
            · rw [show i - t = i - 1 - (t - 1) by omega]; exact hy1
            · rw [show j - t = j - 1 - (t - 1) by omega]; exact hy2
    apply ih
    · intro j' hj'
      exact hjs j' (List.mem_cons_of_mem _ hj')
    · -- the updated dictionary still satisfies the invariant at row i + 1
      intro j' hne
      by_cases hjj : j' = j
      · subst hjj
        simp only [if_pos rfl] at hne ⊢
        refine ⟨hbhi, hblo, ?_, ?_, ?_⟩
        · simpa using hrun.2.2
        · simpa using hrun.2.1
        · intro t ht
          simp only [show i + 1 - 1 = i from rfl]
          exact hrun.1 t (by simpa using ht)
      · simp only [if_neg hjj] at hne ⊢
        exact hnf j' hne
    · -- the updated best state still satisfies MatchSpec
      by_cases hupd : st.bestsize < k
      · simp only [if_pos hupd]
        have h1 := hrun.2.1
        have h2 := hrun.2.2
        constructor
        · intro h0
          have hk0 : k = 0 := h0
          omega
        · intro _
          refine ⟨?_, ?_, ?_, ?_, ?_⟩
          · show alo ≤ i + 1 - k
            omega
          · show i + 1 - k + k ≤ ahi
            omega
          · show blo ≤ j + 1 - k
            omega
          · show j + 1 - k + k ≤ bhi
            omega
          · show ∀ t < k, ∃ x, a.get? (i + 1 - k + t) = some x ∧
                b.get? (j + 1 - k + t) = some x
            exact chain_flip hrun.1 (by omega) (by omega)
      · simpa [if_neg hupd] using hst

theorem chainsBelow_const0 {a b : List α} {alo blo bhi i : Nat} :
    ChainsBelow a b alo blo bhi i (fun _ => 0) :=
  fun _ h => absurd rfl h

theorem flmLoop_spec [DecidableEq α] {a b : List α} {isjunk : α → Bool}
    {autojunk : Bool} {alo ahi blo bhi : Nat} :
    ∀ (n i : Nat) (f : Nat → Nat) (st : Best),
      alo ≤ i → i + n ≤ ahi →
      ChainsBelow a b alo blo bhi i f →
      MatchSpec a b alo ahi blo bhi st →
      MatchSpec a b alo ahi blo bhi
        (flmLoop a (b2j isjunk autojunk b) blo bhi (List.range' i n) f st) := by
  intro n
  induction n with
  | zero =>
    intro i f st _ _ _ hst
    simpa [flmLoop] using hst
  | succ n ih =>
    intro i f st hai hn hcb hst
    rw [List.range'_succ, flmLoop]
    rcases hgets : a.get? i with _ | ai
    · simp only [hgets]
      refine ih (i + 1) _ _ (by omega) (by omega) ?_ ?_
      · exact (flmInner_spec hcb hai (by omega) [] _ st (by simp)
          chainsBelow_const0 hst).1
      · exact (flmInner_spec hcb hai (by omega) [] _ st (by simp)
          chainsBelow_const0 hst).2
    · simp only [hgets]
      have hjs : ∀ j ∈ (b2j isjunk autojunk b ai).filter
          (fun j => decide (blo ≤ j) && decide (j < bhi)),
          blo ≤ j ∧ j < bhi ∧ ∃ x, a.get? i = some x ∧ b.get? j = some x := by
        intro j hj
        rw [List.mem_filter] at hj
        obtain ⟨hmem, hcond⟩ := hj
        simp only [Bool.and_eq_true, decide_eq_true_eq] at hcond
        exact ⟨hcond.1, hcond.2, ai, hgets, mem_b2j hmem⟩
      refine ih (i + 1) _ _ (by omega) (by omega) ?_ ?_
      · exact (flmInner_spec hcb hai (by omega) _ _ st hjs
          chainsBelow_const0 hst).1
      · exact (flmInner_spec hcb hai (by omega) _ _ st hjs
          chainsBelow_const0 hst).2

theorem extendLo_spec [DecidableEq α] {a b : List α} {isjunk : α → Bool}
    {junkSide : Bool} {alo ahi blo bhi : Nat} :
    ∀ (besti bestj bestsize : Nat),
      MatchSpec a b alo ahi blo bhi ⟨besti, bestj, bestsize⟩ →
      MatchSpec a b alo ahi blo bhi
        (extendLo a b isjunk junkSide alo blo besti bestj bestsize) := by
  intro besti
  induction besti with
  | zero =>
    intro bestj bestsize hst
    simpa [extendLo] using hst
  | succ besti ih =>
    intro bestj bestsize hst
    rw [extendLo]
    split
    case isFalse => exact hst
    case isTrue hcond =>
      simp only [Bool.and_eq_true, decide_eq_true_eq] at hcond
      obtain ⟨⟨halo, hblo⟩, hmatch⟩ := hcond
      rcases hby : b.get? (bestj - 1) with _ | y
      · rw [hby] at hmatch; simp at hmatch
      · rw [hby] at hmatch
        simp only [Bool.and_eq_true, decide_eq_true_eq] at hmatch
        have hay : a.get? besti = some y := hmatch.2
        apply ih
        rcases Nat.eq_zero_or_pos bestsize with h0 | hpos
        · subst h0
          have he1 : besti + 1 = alo := (hst.1 rfl).1
          omega
        · have hb := hst.2 (show bestsize ≠ 0 by omega)
          have h1 : alo ≤ besti + 1 := hb.1
          have h2 : besti + 1 + bestsize ≤ ahi := hb.2.1
          have h3 : blo ≤ bestj := hb.2.2.1
          have h4 : bestj + bestsize ≤ bhi := hb.2.2.2.1
          have h5 : ∀ t < bestsize, ∃ x, a.get? (besti + 1 + t) = some x ∧
              b.get? (bestj + t) = some x := hb.2.2.2.2
          constructor
          · intro h
            have : bestsize + 1 = 0 := h
            omega
          · intro _
            dsimp only
            refine ⟨by omega, by omega, by omega, by omega, ?_⟩
            intro t ht
            rcases Nat.eq_zero_or_pos t with ht0 | htpos
            · subst ht0
              refine ⟨y, by simpa using hay, ?_⟩
              simpa using hby
            · obtain ⟨x, hx1, hx2⟩ := h5 (t - 1) (by omega)
              refine ⟨x, ?_, ?_⟩
              · rw [show besti + t = besti + 1 + (t - 1) by omega]; exact hx1
              · rw [show bestj - 1 + t = bestj + (t - 1) by omega]; exact hx2

theorem extendHi_spec [DecidableEq α] {a b : List α} {isjunk : α → Bool}
    {junkSide : Bool} {alo ahi blo bhi : Nat} :
    ∀ (room bestsize besti bestj : Nat),
      MatchSpec a b alo ahi blo bhi ⟨besti, bestj, bestsize⟩ →
      MatchSpec a b alo ahi blo bhi
        ⟨besti, bestj,
          extendHi a b isjunk junkSide ahi bhi besti bestj room bestsize⟩ := by
  intro room
  induction room with
  | zero =>
    intro bestsize besti bestj hst
    simpa [extendHi] using hst
  | succ room ih =>
    intro bestsize besti bestj hst
    rw [extendHi]
    split
    case isFalse => exact hst
    case isTrue hcond =>
      simp only [Bool.and_eq_true, decide_eq_true_eq] at hcond
      obtain ⟨⟨hahi, hbhi⟩, hmatch⟩ := hcond
      rcases hby : b.get? (bestj + bestsize) with _ | y
      · rw [hby] at hmatch; simp at hmatch
      · rw [hby] at hmatch
        simp only [Bool.and_eq_true, decide_eq_true_eq] at hmatch
        have hay : a.get? (besti + bestsize) = some y := hmatch.2
        apply ih
        rcases Nat.eq_zero_or_pos bestsize with h0 | hpos
        · subst h0
          have he1 : besti = alo := (hst.1 rfl).1
          have he2 : bestj = blo := (hst.1 rfl).2
          constructor
          · intro h
            have : (0 : Nat) + 1 = 0 := h
            omega
          · intro _
            dsimp only
            refine ⟨by omega, by omega, by omega, by omega, ?_⟩
            intro t ht
            interval_cases t
            exact ⟨y, by simpa using hay, by simpa using hby⟩
        · have hb := hst.2 (show bestsize ≠ 0 by omega)
          have h1 : alo ≤ besti := hb.1
          have h2 : besti + bestsize ≤ ahi := hb.2.1
          have h3 : blo ≤ bestj := hb.2.2.1
          have h4 : bestj + bestsize ≤ bhi := hb.2.2.2.1
          have h5 : ∀ t < bestsize, ∃ x, a.get? (besti + t) = some x ∧
              b.get? (bestj + t) = some x := hb.2.2.2.2
          constructor
          · intro h
            have : bestsize + 1 = 0 := h
            omega
          · intro _
            dsimp only
            refine ⟨h1, by omega, h3, by omega, ?_⟩
            intro t ht
            rcases Nat.lt_or_ge t bestsize with htlt | htge
            · exact h5 t htlt
            · have hteq : t = bestsize := by omega
              subst hteq
              exact ⟨y, hay, hby⟩

theorem find_longest_match_spec [DecidableEq α] (isjunk : α → Bool)
    (autojunk : Bool) (a b : List α) (alo ahi blo bhi : Nat) :
    MatchSpec a b alo ahi blo bhi
      (find_longest_match isjunk autojunk a b alo ahi blo bhi) := by
  have hst0 : MatchSpec a b alo ahi blo bhi ⟨alo, blo, 0⟩ :=
    ⟨fun _ => ⟨rfl, rfl⟩, fun h => absurd rfl h⟩
  have hst1 : MatchSpec a b alo ahi blo bhi
      (flmLoop a (b2j isjunk autojunk b) blo bhi (List.range' alo (ahi - alo))
        (fun _ => 0) ⟨alo, blo, 0⟩) := by
    rcases le_or_lt alo ahi with hle | hlt
    · exact flmLoop_spec (ahi - alo) alo (fun _ => 0) _ le_rfl (by omega)
        chainsBelow_const0 hst0
    · rw [show ahi - alo = 0 by omega]
      simpa [flmLoop] using hst0
  simp only [find_longest_match]
  exact extendHi_spec _ _ _ _ (extendLo_spec _ _ _
    (extendHi_spec _ _ _ _ (extendLo_spec _ _ _ hst1)))

theorem chainEndA_append {i : Nat} : ∀ (l1 l2 : List Best),
    chainEndA i (l1 ++ l2) = chainEndA (chainEndA i l1) l2 := by
  intro l1
  induction l1 generalizing i with
  | nil => intro l2; rfl
  | cons blk rest ih => intro l2; simp [chainEndA, ih]

theorem chainEndB_append {j : Nat} : ∀ (l1 l2 : List Best),
    chainEndB j (l1 ++ l2) = chainEndB (chainEndB j l1) l2 := by
  intro l1
  induction l1 generalizing j with
  | nil => intro l2; rfl
  | cons blk rest ih => intro l2; simp [chainEndB, ih]

theorem chainEndA_mono : ∀ (l : List Best) (x y : Nat), x ≤ y →
    chainEndA x l ≤ chainEndA y l := by
  intro l
  cases l with
  | nil => intro x y h; exact h
  | cons blk rest => intro x y _; exact le_refl _

theorem chainEndB_mono : ∀ (l : List Best) (x y : Nat), x ≤ y →
    chainEndB x l ≤ chainEndB y l := by
  intro l
  cases l with
  | nil => intro x y h; exact h
  | cons blk rest => intro x y _; exact le_refl _

theorem chain_weaken {a b : List α} : ∀ (l : List Best) (i j i' j' : Nat),
    i' ≤ i → j' ≤ j → Chain a b i j l → Chain a b i' j' l := by
  intro l
  cases l with
  | nil => intro _ _ _ _ _ _ _; trivial
  | cons blk rest =>
    intro i j i' j' hi hj h
    obtain ⟨h1, h2, h3, h4⟩ := h
    exact ⟨le_trans hi h1, le_trans hj h2, h3, h4⟩

theorem chain_append {a b : List α} : ∀ (l1 l2 : List Best) (i j : Nat),
    Chain a b i j l1 → Chain a b (chainEndA i l1) (chainEndB j l1) l2 →
    Chain a b i j (l1 ++ l2) := by
  intro l1
  induction l1 with
  | nil => intro l2 i j _ h2; exact h2
  | cons blk rest ih =>
    intro l2 i j h1 h2
    obtain ⟨ha, hb, hm, hrest⟩ := h1
    exact ⟨ha, hb, hm, ih l2 _ _ hrest h2⟩

theorem chain_besti_le {a b : List α} : ∀ (l : List Best) (i j : Nat),
    Chain a b i j l → ∀ blk ∈ l, i ≤ blk.besti ∧ j ≤ blk.bestj := by
  intro l
  induction l with
  | nil => intro i j _ blk h; simp at h
  | cons hd rest ih =>
    intro i j hc blk hmem
    obtain ⟨h1, h2, _, hrest⟩ := hc
    rcases List.mem_cons.mp hmem with rfl | hmem'
    · exact ⟨h1, h2⟩
    · have := ih _ _ hrest blk hmem'
      exact ⟨le_trans (by omega) this.1, le_trans (by omega) this.2⟩

theorem chain_pairwise {a b : List α} : ∀ (l : List Best) (i j : Nat),
    Chain a b i j l → (∀ blk ∈ l, blk.bestsize ≠ 0) →
    l.Pairwise (fun x y => blockLE x y) := by
  intro l
  induction l with
  | nil => intro _ _ _ _; exact List.Pairwise.nil
  | cons hd rest ih =>
    intro i j hc hnz
    obtain ⟨h1, h2, _, hrest⟩ := hc
    constructor
    · intro blk hmem
      have hle := chain_besti_le rest _ _ hrest blk hmem
      have hnzhd := hnz hd (List.mem_cons_self _ _)
      simp only [blockLE, Bool.or_eq_true, Bool.and_eq_true, decide_eq_true_eq]
      left
      omega
    · exact ih _ _ hrest (fun blk hm => hnz blk (List.mem_cons_of_mem _ hm))

theorem matchingBlocksRec_spec [DecidableEq α] {isjunk : α → Bool}
    {autojunk : Bool} {a b : List α} :
    ∀ (fuel alo ahi blo bhi : Nat), alo ≤ ahi → blo ≤ bhi →
      Chain a b alo blo (matchingBlocksRec isjunk autojunk a b fuel alo ahi blo bhi) ∧
      chainEndA alo (matchingBlocksRec isjunk autojunk a b fuel alo ahi blo bhi) ≤ ahi ∧
      chainEndB blo (matchingBlocksRec isjunk autojunk a b fuel alo ahi blo bhi) ≤ bhi ∧
      ∀ blk ∈ matchingBlocksRec isjunk autojunk a b fuel alo ahi blo bhi,
        blk.bestsize ≠ 0 := by
  intro fuel
  induction fuel with
  | zero =>
    intro alo ahi blo bhi h1 h2
    refine ⟨trivial, h1, h2, ?_⟩
    intro blk h
    simp [matchingBlocksRec] at h
  | succ fuel ih =>
    intro alo ahi blo bhi h1 h2
    rw [matchingBlocksRec]
    set m := find_longest_match isjunk autojunk a b alo ahi blo bhi with hm
    have hspec := find_longest_match_spec isjunk autojunk a b alo ahi blo bhi
    rw [← hm] at hspec
    by_cases hz : m.bestsize = 0
    · simp only [if_pos hz]
      refine ⟨trivial, h1, h2, ?_⟩
      intro blk h
      simp at h
    · simp only [if_neg hz]
      obtain ⟨hia, hia2, hjb, hjb2, hmatch⟩ := hspec.2 hz
      -- left recursion (or nothing)
      have hleft : Chain a b alo blo
            (if alo < m.besti ∧ blo < m.bestj then
              matchingBlocksRec isjunk autojunk a b fuel alo m.besti blo m.bestj
             else []) ∧
          chainEndA alo (if alo < m.besti ∧ blo < m.bestj then
              matchingBlocksRec isjunk autojunk a b fuel alo m.besti blo m.bestj
             else []) ≤ m.besti ∧
          chainEndB blo (if alo < m.besti ∧ blo < m.bestj then
              matchingBlocksRec isjunk autojunk a b fuel alo m.besti blo m.bestj
             else []) ≤ m.bestj ∧
          ∀ blk ∈ (if alo < m.besti ∧ blo < m.bestj then
              matchingBlocksRec isjunk autojunk a b fuel alo m.besti blo m.bestj
             else []), blk.bestsize ≠ 0 := by
        split
        · exact ih alo m.besti blo m.bestj (by omega) (by omega)
        · refine ⟨trivial, hia, hjb, ?_⟩
          intro blk h
          simp at h
      have hright : Chain a b (m.besti + m.bestsize) (m.bestj + m.bestsize)
            (if m.besti + m.bestsize < ahi ∧ m.bestj + m.bestsize < bhi then
              matchingBlocksRec isjunk autojunk a b fuel
                (m.besti + m.bestsize) ahi (m.bestj + m.bestsize) bhi
             else []) ∧
          chainEndA (m.besti + m.bestsize)
            (if m.besti + m.bestsize < ahi ∧ m.bestj + m.bestsize < bhi then
              matchingBlocksRec isjunk autojunk a b fuel
                (m.besti + m.bestsize) ahi (m.bestj + m.bestsize) bhi
             else []) ≤ ahi ∧
          chainEndB (m.bestj + m.bestsize)
            (if m.besti + m.bestsize < ahi ∧ m.bestj + m.bestsize < bhi then
              matchingBlocksRec isjunk autojunk a b fuel
                (m.besti + m.bestsize) ahi (m.bestj + m.bestsize) bhi
             else []) ≤ bhi ∧
          ∀ blk ∈ (if m.besti + m.bestsize < ahi ∧ m.bestj + m.bestsize < bhi then
              matchingBlocksRec isjunk autojunk a b fuel
                (m.besti + m.bestsize) ahi (m.bestj + m.bestsize) bhi
             else []), blk.bestsize ≠ 0 := by
        split
        · exact ih _ ahi _ bhi (by omega) (by omega)
        · refine ⟨trivial, hia2, hjb2, ?_⟩
          intro blk h
          simp at h
      obtain ⟨hlc, hla, hlb, hlnz⟩ := hleft
      obtain ⟨hrc, hra, hrb, hrnz⟩ := hright
      refine ⟨?_, ?_, ?_, ?_⟩
      · rw [List.append_assoc]
        apply chain_append _ _ _ _ hlc
        apply chain_append
        · exact ⟨hla, hlb, hmatch, trivial⟩
        · simp only [chainEndA, chainEndB]
          exact hrc
      · rw [chainEndA_append, chainEndA_append]
        simpa [chainEndA] using hra
      · rw [chainEndB_append, chainEndB_append]
        simpa [chainEndB] using hrb
      · intro blk hmem
        simp only [List.mem_append, List.mem_singleton, List.mem_cons] at hmem
        rcases hmem with (hmem | hmem) | hmem
        · exact hlnz blk hmem
        · rcases hmem with rfl | hfalse
          · exact hz
          · simp at hfalse
        · exact hrnz blk hmem

theorem collapse_spec {a b : List α} : ∀ (bs : List Best) (i1 j1 k1 : Nat),
    (∀ t < k1, ∃ x, a.get? (i1 + t) = some x ∧ b.get? (j1 + t) = some x) →
    Chain a b (i1 + k1) (j1 + k1) bs →
    Chain a b i1 j1 (collapseAdjacent i1 j1 k1 bs) ∧
    chainEndA i1 (collapseAdjacent i1 j1 k1 bs) ≤ chainEndA (i1 + k1) bs ∧
    chainEndB j1 (collapseAdjacent i1 j1 k1 bs) ≤ chainEndB (j1 + k1) bs := by
  intro bs
  induction bs with
  | nil =>
    intro i1 j1 k1 hp _
    rw [collapseAdjacent]
    split
    · exact ⟨⟨le_refl _, le_refl _, hp, trivial⟩, le_refl _, le_refl _⟩
    · refine ⟨trivial, ?_, ?_⟩
      · simp only [chainEndA]; omega
      · simp only [chainEndB]; omega
  | cons blk rest ih =>
    intro i1 j1 k1 hp hc
    obtain ⟨hi2, hj2, hbm, hrest⟩ := hc
    rcases blk with ⟨i2, j2, k2⟩
    dsimp only at hi2 hj2 hbm hrest
    rw [collapseAdjacent]
    split
    case isTrue hadj =>
      obtain ⟨ha1, ha2⟩ := hadj
      have hp' : ∀ t < k1 + k2, ∃ x, a.get? (i1 + t) = some x ∧
          b.get? (j1 + t) = some x := by
        intro t ht
        rcases Nat.lt_or_ge t k1 with h | h
        · exact hp t h
        · obtain ⟨x, hx1, hx2⟩ := hbm (t - k1) (by omega)
          refine ⟨x, ?_, ?_⟩
          · rw [show i1 + t = i2 + (t - k1) by omega]; exact hx1
          · rw [show j1 + t = j2 + (t - k1) by omega]; exact hx2
      have hrest' : Chain a b (i1 + (k1 + k2)) (j1 + (k1 + k2)) rest := by
        have : i1 + (k1 + k2) = i2 + k2 := by omega
        rw [this, show j1 + (k1 + k2) = j2 + k2 by omega]
        exact hrest
      have := ih i1 j1 (k1 + k2) hp' hrest'
      refine ⟨this.1, ?_, ?_⟩
      · refine le_trans this.2.1 ?_
        simp only [chainEndA]
        exact chainEndA_mono _ _ _ (by omega)
      · refine le_trans this.2.2 ?_
        simp only [chainEndB]
        exact chainEndB_mono _ _ _ (by omega)
    case isFalse hadj =>
      have hsub := ih i2 j2 k2 hbm hrest
      split
      case isTrue hk1 =>
        refine ⟨?_, ?_, ?_⟩
        · refine chain_append _ _ _ _ ⟨le_refl _, le_refl _, hp, trivial⟩ ?_
          simp only [chainEndA, chainEndB]
          exact chain_weaken _ _ _ _ _ hi2 hj2 hsub.1
        · rw [chainEndA_append]
          simp only [chainEndA]
          refine le_trans (chainEndA_mono _ _ _ ?_) hsub.2.1
          exact hi2
        · rw [chainEndB_append]
          simp only [chainEndB]
          refine le_trans (chainEndB_mono _ _ _ ?_) hsub.2.2
          exact hj2
      case isFalse hk1 =>
        have hk10 : k1 = 0 := by omega
        subst hk10
        refine ⟨?_, ?_, ?_⟩
        · simp only [List.nil_append]
          exact chain_weaken _ _ _ _ _ (by omega) (by omega) hsub.1
        · simp only [List.nil_append]
          refine le_trans (chainEndA_mono _ _ _ (by omega)) hsub.2.1
        · simp only [List.nil_append]
          refine le_trans (chainEndB_mono _ _ _ (by omega)) hsub.2.2

theorem get_matching_blocks_spec [DecidableEq α] (isjunk : α → Bool)
    (autojunk : Bool) (a b : List α) :
    Chain a b 0 0 (get_matching_blocks isjunk autojunk a b) ∧
    chainEndA 0 (get_matching_blocks isjunk autojunk a b) = a.length ∧
    chainEndB 0 (get_matching_blocks isjunk autojunk a b) = b.length := by
  simp only [get_matching_blocks]
  have hmbr := @matchingBlocksRec_spec α inferInstance isjunk autojunk a b
    (a.length + b.length + 1) 0 a.length 0 b.length
    (by omega) (by omega)
  obtain ⟨hchain, hendA, hendB, hnz⟩ := hmbr
  have hsort : (matchingBlocksRec isjunk autojunk a b (a.length + b.length + 1)
      0 a.length 0 b.length).mergeSort blockLE =
      matchingBlocksRec isjunk autojunk a b (a.length + b.length + 1)
        0 a.length 0 b.length :=
    List.mergeSort_of_sorted (chain_pairwise _ _ _ hchain hnz)
  rw [hsort]
  have hcol := collapse_spec _ 0 0 0 (by intro t ht; omega)
    (by simpa using hchain)
  refine ⟨?_, ?_, ?_⟩
  · apply chain_append _ _ _ _ hcol.1
    refine ⟨le_trans hcol.2.1 (by simpa using hendA),
      le_trans hcol.2.2 (by simpa using hendB), ?_, trivial⟩
    intro t ht
    simp at ht
  · rw [chainEndA_append]
    simp [chainEndA]
  · rw [chainEndB_append]
    simp [chainEndB]

theorem restoreTag_append (tag : List Char) (l1 l2 : List String) :
    restoreTag tag (l1 ++ l2) = restoreTag tag l1 ++ restoreTag tag l2 :=
  List.filterMap_append _ _ _

theorem data_tagLine (c : Char) (s : String) :
    (String.mk [c, ' '] ++ s).data = c :: ' ' :: s.data := by
  simp [String.data_append]

theorem mk_data_eta (s : String) : String.mk s.data = s := rfl

theorem restoreTag_dump (tag : List Char) (c : Char) (x : List String)
    (lo hi : Nat) :
    restoreTag tag (dump c x lo hi) =
      if c = ' ' ∨ ([c, ' '] : List Char) = tag then mapGetD x lo hi
      else [] := by
  unfold restoreTag dump mapGetD
  generalize List.range' lo (hi - lo) = l
  induction l with
  | nil => simp only [List.map_nil, List.filterMap_nil]; split <;> rfl
  | cons i l ih =>
    simp only [List.map_cons, List.filterMap_cons, data_tagLine]
    by_cases h : c = ' ' ∨ ([c, ' '] : List Char) = tag
    · rw [if_pos h] at ih ⊢
      simpa [h, mk_data_eta] using ih
    · rw [if_neg h] at ih ⊢
      simpa [h, mk_data_eta] using ih

theorem mapGetD_empty {x : List String} {lo hi : Nat} (h : hi ≤ lo) :
    mapGetD x lo hi = [] := by
  unfold mapGetD
  rw [show hi - lo = 0 by omega]
  rfl

theorem mapGetD_singleton (x : List String) (i : Nat) :
    mapGetD x i (i + 1) = [x.getD i ""] := by
  unfold mapGetD
  simp

theorem mapGetD_glue (x : List String) {lo mid hi : Nat} (h1 : lo ≤ mid)
    (h2 : mid ≤ hi) :
    mapGetD x lo mid ++ mapGetD x mid hi = mapGetD x lo hi := by
  unfold mapGetD
  rw [← List.map_append]
  congr 1
  have h4 : hi - lo = (hi - mid) + (mid - lo) := by omega
  have h5 : mid = lo + 1 * (mid - lo) := by omega
  rw [h4, ← List.range'_append, ← h5]

theorem mapGetD_self (x : List String) : mapGetD x 0 x.length = x := by
  unfold mapGetD
  simp only [Nat.sub_zero, List.range'_eq_map_range, List.map_map, Nat.zero_add]
  apply List.ext_getElem
  · simp
  · intro i h1 h2
    simp only [List.getElem_map, List.getElem_range, Function.comp]
    rw [List.getD_eq_getElem]

theorem mapGetD_shift {x y : List String} {ai bj k : Nat}
    (h : ∀ t < k, ∃ s, x.get? (ai + t) = some s ∧ y.get? (bj + t) = some s) :
    mapGetD x ai (ai + k) = mapGetD y bj (bj + k) := by
  induction k with
  | zero => rw [mapGetD_empty (by omega), mapGetD_empty (by omega)]
  | succ k ih =>
    have h1 : mapGetD x ai (ai + k) = mapGetD y bj (bj + k) :=
      ih (fun t ht => h t (by omega))
    obtain ⟨s, hs1, hs2⟩ := h k (by omega)
    have e1 : mapGetD x ai (ai + (k + 1)) =
        mapGetD x ai (ai + k) ++ [x.getD (ai + k) ""] := by
      rw [show ai + (k + 1) = ai + k + 1 by omega,
        ← mapGetD_singleton x (ai + k), mapGetD_glue x (by omega) (by omega)]
    have e2 : mapGetD y bj (bj + (k + 1)) =
        mapGetD y bj (bj + k) ++ [y.getD (bj + k) ""] := by
      rw [show bj + (k + 1) = bj + k + 1 by omega,
        ← mapGetD_singleton y (bj + k), mapGetD_glue y (by omega) (by omega)]
    rw [e1, e2, h1]
    have hs1' : x[ai + k]? = some s := by rw [← List.get?_eq_getElem?]; exact hs1
    have hs2' : y[bj + k]? = some s := by rw [← List.get?_eq_getElem?]; exact hs2
    simp [hs1', hs2']

theorem fancyScanStep_inv {a b : List String} {alo ahi blo bhi : Nat}
    {st : FancySel} {i j : Nat} (hi1 : alo ≤ i) (hi2 : i < ahi)
    (hj1 : blo ≤ j) (hj2 : j < bhi)
    (hst : ScanInv a b alo ahi blo bhi st) :
    ScanInv a b alo ahi blo bhi (fancyScanStep a b st j i) := by
  obtain ⟨hle, hbest, heq⟩ := hst
  by_cases heqline : a.getD i "" = b.getD j ""
  · rcases he : st.eqij with _ | p
    · have hstep : fancyScanStep a b st j i = { st with eqij := some (i, j) } := by
        unfold fancyScanStep
        rw [if_pos heqline, he]
      rw [hstep]
      refine ⟨hle, hbest, ?_⟩
      intro i' j' h
      have h' : some (i, j) = some (i', j') := h
      simp only [Option.some.injEq, Prod.mk.injEq] at h'
      obtain ⟨rfl, rfl⟩ := h'
      exact ⟨hi1, hi2, hj1, hj2, heqline⟩
    · have hstep : fancyScanStep a b st j i = st := by
        unfold fancyScanStep
        rw [if_pos heqline, he]
      rw [hstep]
      exact ⟨hle, hbest, heq⟩
  · by_cases hr :
      real_quick_ratio (a.getD i "").data (b.getD j "").data > st.best_ratio ∧
        quick_ratio (a.getD i "").data (b.getD j "").data > st.best_ratio ∧
        ratio IS_CHARACTER_JUNK true (a.getD i "").data (b.getD j "").data >
          st.best_ratio
    · have hstep : fancyScanStep a b st j i =
          { st with
            best_ratio := ratio IS_CHARACTER_JUNK true (a.getD i "").data
              (b.getD j "").data
            best_i := i, best_j := j } := by
        unfold fancyScanStep
        rw [if_neg heqline, if_pos hr]
      rw [hstep]
      refine ⟨le_of_lt (lt_of_le_of_lt hle hr.2.2), fun _ => ⟨hi1, hi2, hj1, hj2⟩, ?_⟩
      intro i' j' h
      exact heq i' j' h
    · have hstep : fancyScanStep a b st j i = st := by
        unfold fancyScanStep
        rw [if_neg heqline, if_neg hr]
      rw [hstep]
      exact ⟨hle, hbest, heq⟩

theorem fancyScan_inv (a : List String) (alo ahi : Nat) (b : List String)
    (blo bhi : Nat) :
    ScanInv a b alo ahi blo bhi (fancyScan a alo ahi b blo bhi) := by
  unfold fancyScan
  apply List.foldlRecOn
  · refine ⟨le_refl _, ?_, ?_⟩
    · intro h
      exact absurd h (lt_irrefl _)
    · intro i j h
      simp at h
  · intro st hst j hjmem
    have hj := List.mem_range'_1.mp hjmem
    apply List.foldlRecOn
    · exact hst
    · intro st' hst' i himem
      have hi := List.mem_range'_1.mp himem
      exact fancyScanStep_inv (by omega) (by omega) (by omega) (by omega) hst'

theorem restore_plain_plus (a : List String) (alo ahi : Nat) (b : List String)
    (blo bhi : Nat) :
    restoreTag ['+', ' '] (plain_replace a alo ahi b blo bhi) =
      mapGetD b blo bhi := by
  unfold plain_replace
  split <;> simp [restoreTag_append, restoreTag_dump]

theorem restore_plain_minus (a : List String) (alo ahi : Nat) (b : List String)
    (blo bhi : Nat) :
    restoreTag ['-', ' '] (plain_replace a alo ahi b blo bhi) =
      mapGetD a alo ahi := by
  unfold plain_replace
  split <;> simp [restoreTag_append, restoreTag_dump]

theorem restoreTag_singleton (tag : List Char) (s : String) :
    restoreTag tag [s] =
      if s.data.take 2 = [' ', ' '] ∨ s.data.take 2 = tag then
        [String.mk (s.data.drop 2)]
      else [] := by
  by_cases h : s.data.take 2 = [' ', ' '] ∨ s.data.take 2 = tag
  · simp [restoreTag, h]
  · simp [restoreTag, h]

theorem restoreTag_qline (tag : List Char) (htag : tag ≠ ['?', ' '])
    (ts : List Char) (opt : Prop) [Decidable opt] :
    restoreTag tag (if opt then ["? " ++ String.mk ts ++ "\n"] else []) = [] := by
  split
  · have hd : ("? " ++ String.mk ts ++ "\n").data = '?' :: ' ' :: (ts ++ ['\n']) := by
      simp [String.data_append]
    rw [restoreTag_singleton, hd]
    have hcond : ¬(List.take 2 ('?' :: ' ' :: (ts ++ ['\n'])) = [' ', ' '] ∨
        List.take 2 ('?' :: ' ' :: (ts ++ ['\n'])) = tag) := by
      have h1 : List.take 2 ('?' :: ' ' :: (ts ++ ['\n'])) = ['?', ' '] := rfl
      rw [h1]
      rintro (h | h)
      · simp at h
      · exact htag h.symm
    rw [if_neg hcond]
  · rfl

theorem restore_qformat_plus (aline bline : String) (atags btags : List Char) :
    restoreTag ['+', ' '] (qformat aline bline atags btags) = [bline] := by
  unfold qformat
  rw [restoreTag_append, restoreTag_append, restoreTag_append]
  rw [restoreTag_qline _ (by decide), restoreTag_qline _ (by decide)]
  rw [restoreTag_singleton, restoreTag_singleton]
  have h1 : ("- " ++ aline).data = '-' :: ' ' :: aline.data := by
    simp [String.data_append]
  have h2 : ("+ " ++ bline).data = '+' :: ' ' :: bline.data := by
    simp [String.data_append]
  rw [h1, h2]
  simp [mk_data_eta]

theorem restore_qformat_minus (aline bline : String) (atags btags : List Char) :
    restoreTag ['-', ' '] (qformat aline bline atags btags) = [aline] := by
  unfold qformat
  rw [restoreTag_append, restoreTag_append, restoreTag_append]
  rw [restoreTag_qline _ (by decide), restoreTag_qline _ (by decide)]
  rw [restoreTag_singleton, restoreTag_singleton]
  have h1 : ("- " ++ aline).data = '-' :: ' ' :: aline.data := by
    simp [String.data_append]
  have h2 : ("+ " ++ bline).data = '+' :: ' ' :: bline.data := by
    simp [String.data_append]
  rw [h1, h2]
  simp [mk_data_eta]

theorem restore_intraline_plus (ae be : String) :
    restoreTag ['+', ' '] (intraline ae be) = [be] := by
  unfold intraline
  exact restore_qformat_plus _ _ _ _

theorem restore_intraline_minus (ae be : String) :
    restoreTag ['-', ' '] (intraline ae be) = [ae] := by
  unfold intraline
  exact restore_qformat_minus _ _ _ _

theorem restore_eqline (tag : List Char) (s : String) :
    restoreTag tag ["  " ++ s] = [s] := by
  rw [restoreTag_singleton]
  have h1 : ("  " ++ s).data = ' ' :: ' ' :: s.data := by
    simp [String.data_append]
  rw [h1]
  simp [mk_data_eta]

theorem fancy_roundtrip : ∀ (fuel : Nat) (a : List String) (alo ahi : Nat)
    (b : List String) (blo bhi : Nat),
    (restoreTag ['+', ' '] (fancy_replace fuel a alo ahi b blo bhi) =
        mapGetD b blo bhi ∧
      restoreTag ['-', ' '] (fancy_replace fuel a alo ahi b blo bhi) =
        mapGetD a alo ahi) ∧
    (restoreTag ['+', ' '] (fancy_helper fuel a alo ahi b blo bhi) =
        mapGetD b blo bhi ∧
      restoreTag ['-', ' '] (fancy_helper fuel a alo ahi b blo bhi) =
        mapGetD a alo ahi) := by
  have hhelper : ∀ (fuel : Nat),
      (∀ (a : List String) (alo ahi : Nat) (b : List String) (blo bhi : Nat),
        restoreTag ['+', ' '] (fancy_replace fuel a alo ahi b blo bhi) =
          mapGetD b blo bhi ∧
        restoreTag ['-', ' '] (fancy_replace fuel a alo ahi b blo bhi) =
          mapGetD a alo ahi) →
      ∀ (a : List String) (alo ahi : Nat) (b : List String) (blo bhi : Nat),
        restoreTag ['+', ' '] (fancy_helper fuel a alo ahi b blo bhi) =
          mapGetD b blo bhi ∧
        restoreTag ['-', ' '] (fancy_helper fuel a alo ahi b blo bhi) =
          mapGetD a alo ahi := by
    intro fuel hrep a alo ahi b blo bhi
    unfold fancy_helper
    by_cases h1 : alo < ahi
    · rw [if_pos h1]
      by_cases h2 : blo < bhi
      · rw [if_pos h2]
        exact hrep a alo ahi b blo bhi
      · rw [if_neg h2]
        constructor
        · rw [restoreTag_dump]
          rw [if_neg (by decide)]
          rw [mapGetD_empty (by omega)]
        · rw [restoreTag_dump]
          rw [if_pos (by decide)]
    · rw [if_neg h1]
      by_cases h2 : blo < bhi
      · rw [if_pos h2]
        constructor
        · rw [restoreTag_dump]
          rw [if_pos (by decide)]
        · rw [restoreTag_dump]
          rw [if_neg (by decide)]
          rw [mapGetD_empty (by omega)]
      · rw [if_neg h2]
        constructor
        · show restoreTag ['+', ' '] [] = mapGetD b blo bhi
          rw [mapGetD_empty (by omega)]
          rfl
        · show restoreTag ['-', ' '] [] = mapGetD a alo ahi
          rw [mapGetD_empty (by omega)]
          rfl
  intro fuel
  induction fuel with
  | zero =>
    intro a alo ahi b blo bhi
    have hrep : ∀ (a : List String) (alo ahi : Nat) (b : List String)
        (blo bhi : Nat),
        restoreTag ['+', ' '] (fancy_replace 0 a alo ahi b blo bhi) =
          mapGetD b blo bhi ∧
        restoreTag ['-', ' '] (fancy_replace 0 a alo ahi b blo bhi) =
          mapGetD a alo ahi := by
      intro a alo ahi b blo bhi
      rw [fancy_replace]
      exact ⟨restore_plain_plus a alo ahi b blo bhi,
        restore_plain_minus a alo ahi b blo bhi⟩
    exact ⟨hrep a alo ahi b blo bhi, hhelper 0 hrep a alo ahi b blo bhi⟩
  | succ fuel ih =>
    intro a alo ahi b blo bhi
    have ihh : ∀ (a : List String) (alo ahi : Nat) (b : List String)
        (blo bhi : Nat),
        restoreTag ['+', ' '] (fancy_helper fuel a alo ahi b blo bhi) =
          mapGetD b blo bhi ∧
        restoreTag ['-', ' '] (fancy_helper fuel a alo ahi b blo bhi) =
          mapGetD a alo ahi :=
      fun a alo ahi b blo bhi => (ih a alo ahi b blo bhi).2
    have hrep : ∀ (a : List String) (alo ahi : Nat) (b : List String)
        (blo bhi : Nat),
        restoreTag ['+', ' '] (fancy_replace (fuel + 1) a alo ahi b blo bhi) =
          mapGetD b blo bhi ∧
        restoreTag ['-', ' '] (fancy_replace (fuel + 1) a alo ahi b blo bhi) =
          mapGetD a alo ahi := by
      intro a alo ahi b blo bhi
      have hscan := fancyScan_inv a alo ahi b blo bhi
      obtain ⟨hle, hbest, heq⟩ := hscan
      rw [fancy_replace]
      by_cases hcut : (fancyScan a alo ahi b blo bhi).best_ratio < 3 / 4
      · rw [if_pos hcut]
        rcases he : (fancyScan a alo ahi b blo bhi).eqij with _ | p
        · exact ⟨restore_plain_plus a alo ahi b blo bhi,
            restore_plain_minus a alo ahi b blo bhi⟩
        · rcases p with ⟨eqi, eqj⟩
          obtain ⟨hq1, hq2, hq3, hq4, hq5⟩ := heq eqi eqj he
          constructor
          · rw [restoreTag_append, restoreTag_append]
            rw [(ihh a alo eqi b blo eqj).1, (ihh a (eqi + 1) ahi b (eqj + 1) bhi).1]
            rw [restore_eqline, hq5]
            rw [show [b.getD eqj ""] = mapGetD b eqj (eqj + 1) from
              (mapGetD_singleton b eqj).symm]
            rw [mapGetD_glue b (by omega) (by omega),
              mapGetD_glue b (by omega) (by omega)]
          · rw [restoreTag_append, restoreTag_append]
            rw [(ihh a alo eqi b blo eqj).2, (ihh a (eqi + 1) ahi b (eqj + 1) bhi).2]
            rw [restore_eqline]
            rw [show [a.getD eqi ""] = mapGetD a eqi (eqi + 1) from
              (mapGetD_singleton a eqi).symm]
            rw [mapGetD_glue a (by omega) (by omega),
              mapGetD_glue a (by omega) (by omega)]
      · rw [if_neg hcut]
        have hgt : 74 / 100 < (fancyScan a alo ahi b blo bhi).best_ratio := by
          have : (74 : ℚ) / 100 < 3 / 4 := by norm_num
          have h34 : (3 : ℚ) / 4 ≤ (fancyScan a alo ahi b blo bhi).best_ratio :=
            le_of_not_lt hcut
          exact lt_of_lt_of_le this h34
        obtain ⟨hb1, hb2, hb3, hb4⟩ := hbest hgt
        constructor
        · rw [restoreTag_append, restoreTag_append]
          rw [(ihh a alo _ b blo _).1, (ihh a _ ahi b _ bhi).1]
          rw [restore_intraline_plus]
          rw [show [b.getD (fancyScan a alo ahi b blo bhi).best_j ""] =
              mapGetD b (fancyScan a alo ahi b blo bhi).best_j
                ((fancyScan a alo ahi b blo bhi).best_j + 1) from
            (mapGetD_singleton b _).symm]
          rw [mapGetD_glue b (by omega) (by omega),
            mapGetD_glue b (by omega) (by omega)]
        · rw [restoreTag_append, restoreTag_append]
          rw [(ihh a alo _ b blo _).2, (ihh a _ ahi b _ bhi).2]
          rw [restore_intraline_minus]
          rw [show [a.getD (fancyScan a alo ahi b blo bhi).best_i ""] =
              mapGetD a (fancyScan a alo ahi b blo bhi).best_i
                ((fancyScan a alo ahi b blo bhi).best_i + 1) from
            (mapGetD_singleton a _).symm]
          rw [mapGetD_glue a (by omega) (by omega),
            mapGetD_glue a (by omega) (by omega)]
    exact ⟨hrep a alo ahi b blo bhi, hhelper (fuel + 1) hrep a alo ahi b blo bhi⟩

theorem chainEnd_le {a b : List α} : ∀ (l : List Best) (i j : Nat),
    Chain a b i j l → i ≤ chainEndA i l ∧ j ≤ chainEndB j l := by
  intro l
  induction l with
  | nil => intro i j _; exact ⟨le_refl _, le_refl _⟩
  | cons blk rest ih =>
    intro i j hc
    obtain ⟨h1, h2, _, hrest⟩ := hc
    have := ih (blk.besti + blk.bestsize) (blk.bestj + blk.bestsize) hrest
    simp only [chainEndA, chainEndB]
    exact ⟨le_trans (by omega) this.1, le_trans (by omega) this.2⟩

theorem opcodes_roundtrip {a b : List String} : ∀ (bs : List Best) (i j : Nat),
    Chain a b i j bs →
    restoreTag ['+', ' '] ((opcodesLoop i j bs).flatMap (opcodeLines a b)) =
      mapGetD b j (chainEndB j bs) ∧
    restoreTag ['-', ' '] ((opcodesLoop i j bs).flatMap (opcodeLines a b)) =
      mapGetD a i (chainEndA i bs) := by
  intro bs
  induction bs with
  | nil =>
    intro i j _
    constructor
    · rw [show chainEndB j ([] : List Best) = j from rfl, mapGetD_empty (by omega)]
      rfl
    · rw [show chainEndA i ([] : List Best) = i from rfl, mapGetD_empty (by omega)]
      rfl
  | cons blk rest ih =>
    intro i j hc
    rcases blk with ⟨ai, bj, size⟩
    obtain ⟨hia, hjb, hmatch, hrest⟩ := hc
    dsimp only at hia hjb hmatch hrest
    have hihr := ih (ai + size) (bj + size) hrest
    have hends := chainEnd_le rest (ai + size) (bj + size) hrest
    rw [opcodesLoop]
    rw [List.flatMap_append, List.flatMap_append]
    have hpre :
        restoreTag ['+', ' ']
          ((if i < ai ∧ j < bj then [⟨Tag.replace, i, ai, j, bj⟩]
            else if i < ai then [⟨Tag.delete, i, ai, j, bj⟩]
            else if j < bj then [⟨Tag.insert, i, ai, j, bj⟩]
            else []).flatMap (opcodeLines a b)) = mapGetD b j bj ∧
        restoreTag ['-', ' ']
          ((if i < ai ∧ j < bj then [⟨Tag.replace, i, ai, j, bj⟩]
            else if i < ai then [⟨Tag.delete, i, ai, j, bj⟩]
            else if j < bj then [⟨Tag.insert, i, ai, j, bj⟩]
            else []).flatMap (opcodeLines a b)) = mapGetD a i ai := by
      by_cases h1 : i < ai ∧ j < bj
      · rw [if_pos h1]
        simp only [List.flatMap_cons, List.flatMap_nil, List.append_nil,
          opcodeLines]
        exact ⟨(fancy_roundtrip _ a i ai b j bj).1.1,
          (fancy_roundtrip _ a i ai b j bj).1.2⟩
      · rw [if_neg h1]
        by_cases h2 : i < ai
        · rw [if_pos h2]
          have hjbj : j = bj := by omega
          subst hjbj
          simp only [List.flatMap_cons, List.flatMap_nil, List.append_nil,
            opcodeLines]
          constructor
          · rw [restoreTag_dump, if_neg (by decide), mapGetD_empty (by omega)]
          · rw [restoreTag_dump, if_pos (by decide)]
        · rw [if_neg h2]
          have hiai : i = ai := by omega
          subst hiai
          by_cases h3 : j < bj
          · rw [if_pos h3]
            simp only [List.flatMap_cons, List.flatMap_nil, List.append_nil,
              opcodeLines]
            constructor
            · rw [restoreTag_dump, if_pos (by decide)]
            · rw [restoreTag_dump, if_neg (by decide), mapGetD_empty (by omega)]
          · rw [if_neg h3]
            have hjbj : j = bj := by omega
            subst hjbj
            constructor
            · rw [mapGetD_empty (by omega)]
              rfl
            · rw [mapGetD_empty (by omega)]
              rfl
    have heqop :
        restoreTag ['+', ' ']
          ((if size ≠ 0 then [⟨Tag.equal, ai, ai + size, bj, bj + size⟩]
            else []).flatMap (opcodeLines a b)) = mapGetD b bj (bj + size) ∧
        restoreTag ['-', ' ']
          ((if size ≠ 0 then [⟨Tag.equal, ai, ai + size, bj, bj + size⟩]
            else []).flatMap (opcodeLines a b)) = mapGetD a ai (ai + size) := by
      by_cases h1 : size ≠ 0
      · rw [if_pos h1]
        simp only [List.flatMap_cons, List.flatMap_nil, List.append_nil,
          opcodeLines]
        constructor
        · rw [restoreTag_dump, if_pos (by decide)]
          exact mapGetD_shift hmatch
        · rw [restoreTag_dump, if_pos (by decide)]
      · rw [if_neg h1]
        have h0 : size = 0 := by omega
        subst h0
        constructor
        · rw [mapGetD_empty (by omega)]
          rfl
        · rw [mapGetD_empty (by omega)]
          rfl
    constructor
    · rw [restoreTag_append, restoreTag_append, hpre.1, heqop.1, hihr.1]
      rw [show chainEndB j (⟨ai, bj, size⟩ :: rest) =
        chainEndB (bj + size) rest from rfl]
      rw [mapGetD_glue b (by omega) (by omega)]
      rw [mapGetD_glue b (by omega) hends.2]
    · rw [restoreTag_append, restoreTag_append, hpre.2, heqop.2, hihr.2]
      rw [show chainEndA i (⟨ai, bj, size⟩ :: rest) =
        chainEndA (ai + size) rest from rfl]
      rw [mapGetD_glue a (by omega) (by omega)]
      rw [mapGetD_glue a (by omega) hends.1]

theorem compare_roundtrip (a b : List String) :
    restoreTag ['+', ' '] (compare a b) = b ∧
    restoreTag ['-', ' '] (compare a b) = a := by
  unfold compare get_opcodes
  obtain ⟨hchain, hA, hB⟩ := get_matching_blocks_spec (fun _ => false) true a b
  have h := opcodes_roundtrip (get_matching_blocks (fun _ => false) true a b)
    0 0 hchain
  rw [hA, hB] at h
  rw [mapGetD_self, mapGetD_self] at h
  exact h

end MatcherProofs

/-- C1: for every pair of finite line sequences A and B (including empty
sequences), restoring the NEW side (`which = 2`) of the delta produced by
`ndiff(A, B)` yields exactly B, and restoring the OLD side (`which = 1`)
yields exactly A: the `difflib.ndiff` tagged delta replayed via
`difflib.restore` is lossless in both directions. -/
theorem C1_ndiff_restore_roundtrip (A B : List String) :
    restore (ndiff A B) 2 = some B ∧ restore (ndiff A B) 1 = some A := by
  constructor
  · show restore (ndiff A B) 2 = some B
    unfold restore
    rw [if_neg (by norm_num), if_pos rfl]
    exact congrArg some (compare_roundtrip A B).1
  · show restore (ndiff A B) 1 = some A
    unfold restore
    rw [if_pos rfl]
    exact congrArg some (compare_roundtrip A B).2

end Difflib

namespace Py

set_option maxHeartbeats 1000000 in
theorem splitlinesAux_breakFree :
    ∀ (acc cs : List Char), (∀ c ∈ acc, isLineBreak c = false) →
    ∀ l ∈ splitlinesAux acc cs, ∀ c ∈ l, isLineBreak c = false := by
  intro acc cs
  induction acc, cs using splitlinesAux.induct with
  | case1 =>
    intro _ l hl
    simp [splitlinesAux] at hl
  | case2 acc hne =>
    intro hacc l hl c hc
    rw [splitlinesAux, if_neg hne] at hl
    simp only [List.mem_singleton] at hl
    subst hl
    exact hacc c (by simpa using hc)
  | case3 acc rest ih =>
    intro hacc l hl c hc
    rw [splitlinesAux] at hl
    rcases List.mem_cons.mp hl with rfl | hl2
    · exact hacc c (by simpa using hc)
    · exact ih (by simp) l hl2 c hc
  | case4 acc c2 rest hno hbr ih =>
    intro hacc l hl c hc
    rw [splitlinesAux.eq_3 acc c2 rest hno, if_pos hbr] at hl
    rcases List.mem_cons.mp hl with rfl | hl2
    · exact hacc c (by simpa using hc)
    · exact ih (by simp) l hl2 c hc
  | case5 acc c2 rest hno hbr ih =>
    intro hacc l hl c hc
    rw [splitlinesAux.eq_3 acc c2 rest hno, if_neg hbr] at hl
    refine ih ?_ l hl c hc
    intro d hd
    rcases List.mem_cons.mp hd with rfl | hd2
    · simpa using hbr
    · exact hacc d hd2

theorem splitlinesAux_newline :
    ∀ (u acc rest : List Char), (∀ c ∈ u, isLineBreak c = false) →
    splitlinesAux acc (u ++ '\n' :: rest) =
      (acc.reverse ++ u) :: splitlinesAux [] rest := by
  intro u
  induction u with
  | nil =>
    intro acc rest _
    simp [splitlinesAux, isLineBreak]
  | cons c u ih =>
    intro acc rest hu
    have hc : isLineBreak c = false := hu c (List.mem_cons_self _ _)
    have hno : ∀ (rest2 : List Char), c = '\x0d' →
        u ++ '\n' :: rest = '\n' :: rest2 → False := by
      intro rest2 hcr _
      subst hcr
      simp [isLineBreak] at hc
    rw [List.cons_append, splitlinesAux.eq_3 acc c _ hno, if_neg (by simp [hc])]
    rw [ih (c :: acc) rest (fun d hd => hu d (List.mem_cons_of_mem _ hd))]
    simp

theorem splitlinesAux_nobreak :
    ∀ (u acc : List Char), (∀ c ∈ u, isLineBreak c = false) →
    splitlinesAux acc u =
      if acc.reverse ++ u = [] then [] else [acc.reverse ++ u] := by
  intro u
  induction u with
  | nil =>
    intro acc _
    rw [splitlinesAux]
    rcases Classical.em (acc = []) with h | h
    · subst h; simp
    · rw [if_neg h, if_neg (by simpa using h)]
      simp
  | cons c u ih =>
    intro acc hu
    have hc : isLineBreak c = false := hu c (List.mem_cons_self _ _)
    have hno : ∀ (rest2 : List Char), c = '\x0d' →
        u = '\n' :: rest2 → False := by
      intro rest2 hcr _
      subst hcr
      simp [isLineBreak] at hc
    rw [splitlinesAux.eq_3 acc c _ hno, if_neg (by simp [hc])]
    rw [ih (c :: acc) (fun d hd => hu d (List.mem_cons_of_mem _ hd))]
    have h1 : (c :: acc).reverse ++ u = acc.reverse ++ c :: u := by simp
    rw [h1]

theorem intercalate_go_append (acc1 : String) :
    ∀ (l : List String) (acc2 s : String),
    String.intercalate.go (acc1 ++ acc2) s l =
      acc1 ++ String.intercalate.go acc2 s l := by
  intro l
  induction l with
  | nil => intro acc2 s; rfl
  | cons a as ih =>
    intro acc2 s
    show String.intercalate.go (acc1 ++ acc2 ++ s ++ a) s as = _
    rw [show acc1 ++ acc2 ++ s ++ a = acc1 ++ (acc2 ++ s ++ a) by
      simp [String.append_assoc]]
    rw [ih]
    rfl

theorem intercalate_cons_cons (s a b : String) (l : List String) :
    String.intercalate s (a :: b :: l) =
      a ++ s ++ String.intercalate s (b :: l) := by
  show String.intercalate.go a s (b :: l) = _
  show String.intercalate.go (a ++ s ++ b) s l = _
  rw [show a ++ s ++ b = (a ++ s) ++ b from rfl, intercalate_go_append]
  rfl

theorem splitlines_breakFree (s : String) :
    ∀ l ∈ splitlines s, ∀ c ∈ l.data, isLineBreak c = false := by
  intro l hl c hc
  unfold splitlines at hl
  obtain ⟨ld, hld, rfl⟩ := List.mem_map.mp hl
  exact splitlinesAux_breakFree [] s.data (by simp) ld hld c hc

theorem splitlines_nobreak (a : String)
    (ha : ∀ c ∈ a.data, isLineBreak c = false) :
    splitlines a = if a.data = [] then [] else [a] := by
  unfold splitlines
  rw [splitlinesAux_nobreak a.data [] ha]
  simp only [List.reverse_nil, List.nil_append]
  split
  · rfl
  · simp [Difflib.mk_data_eta]

theorem splitlines_append_newline (a rest : String)
    (ha : ∀ c ∈ a.data, isLineBreak c = false) :
    splitlines (a ++ "\n" ++ rest) = a :: splitlines rest := by
  unfold splitlines
  have hd : (a ++ "\n" ++ rest).data = a.data ++ '\n' :: rest.data := by
    simp [String.data_append]
  rw [hd, splitlinesAux_newline a.data [] rest.data ha]
  simp [Difflib.mk_data_eta]

theorem splitlines_join_newline :
    ∀ (L : List String), L ≠ [] →
    (∀ s ∈ L, ∀ c ∈ s.data, isLineBreak c = false) →
    splitlines (String.intercalate "\n" L ++ "\n") = L := by
  intro L
  induction L with
  | nil => intro h; exact absurd rfl h
  | cons a L ih =>
    intro _ hbf
    cases L with
    | nil =>
      have h1 : String.intercalate "\n" [a] = a := rfl
      rw [h1]
      have h2 : a ++ "\n" = a ++ "\n" ++ "" := by simp
      rw [h2, splitlines_append_newline a "" (hbf a (by simp))]
      rfl
    | cons b L' =>
      rw [intercalate_cons_cons]
      rw [show a ++ "\n" ++ String.intercalate "\n" (b :: L') ++ "\n" =
        a ++ "\n" ++ (String.intercalate "\n" (b :: L') ++ "\n") by
          simp [String.append_assoc]]
      rw [splitlines_append_newline a _ (hbf a (by simp))]
      rw [ih (by simp) (fun s hs => hbf s (List.mem_cons_of_mem _ hs))]

end Py

namespace Difflib

theorem breakFree_empty : BreakFree "" := by
  intro c hc
  simp at hc

theorem breakFree_getD (x : List String) (hx : ∀ s ∈ x, BreakFree s)
    (i : Nat) : BreakFree (x.getD i "") := by
  rcases Nat.lt_or_ge i x.length with h | h
  · rw [List.getD_eq_getElem x "" h]
    exact hx _ (x.getElem_mem h)
  · rw [List.getD_eq_default x "" h]
    exact breakFree_empty

theorem dump_linesOK (c : Char) (hc : c = '-' ∨ c = '+' ∨ c = ' ')
    (x : List String) (hx : ∀ s ∈ x, BreakFree s) (lo hi : Nat) :
    ∀ line ∈ dump c x lo hi, NdiffLineOK line := by
  intro line hline
  obtain ⟨i, _, rfl⟩ := List.mem_map.mp hline
  exact Or.inl ⟨c, (x.getD i "").data, hc, data_tagLine c _, breakFree_getD x hx i⟩

theorem plain_linesOK (a : List String) (ha : ∀ s ∈ a, BreakFree s)
    (b : List String) (hb : ∀ s ∈ b, BreakFree s) (alo ahi blo bhi : Nat) :
    ∀ line ∈ plain_replace a alo ahi b blo bhi, NdiffLineOK line := by
  intro line hline
  unfold plain_replace at hline
  split at hline <;> rcases List.mem_append.mp hline with h | h
  · exact dump_linesOK '+' (by simp) b hb _ _ line h
  · exact dump_linesOK '-' (by simp) a ha _ _ line h
  · exact dump_linesOK '-' (by simp) a ha _ _ line h
  · exact dump_linesOK '+' (by simp) b hb _ _ line h

theorem keep_ws_breakFree (s tags : List Char) (hs : BreakFreeL s)
    (ht : BreakFreeL tags) : BreakFreeL (keep_original_ws s tags) := by
  intro c hc
  unfold keep_original_ws at hc
  obtain ⟨p, hp, rfl⟩ := List.mem_map.mp hc
  have hmem := List.of_mem_zip hp
  split
  · exact hs _ hmem.1
  · exact ht _ hmem.2

theorem rstrip_breakFree (l : List Char) (hl : BreakFreeL l) :
    BreakFreeL (Py.rstrip l) := by
  intro c hc
  unfold Py.rstrip at hc
  rw [List.mem_reverse] at hc
  have := List.dropWhile_subset _ hc
  rw [List.mem_reverse] at this
  exact hl _ this

theorem qformat_linesOK (aline bline : String) (atags btags : List Char)
    (ha : BreakFree aline) (hb : BreakFree bline)
    (hta : BreakFreeL atags) (htb : BreakFreeL btags) :
    ∀ line ∈ qformat aline bline atags btags, NdiffLineOK line := by
  intro line hline
  unfold qformat at hline
  have hminus : ("- " ++ aline).data = '-' :: ' ' :: aline.data := by
    simp [String.data_append]
  have hplus : ("+ " ++ bline).data = '+' :: ' ' :: bline.data := by
    simp [String.data_append]
  have hq : ∀ (ts : List Char),
      ("? " ++ String.mk ts ++ "\n").data = '?' :: ' ' :: (ts ++ ['\n']) := by
    intro ts
    simp [String.data_append]
  rcases List.mem_append.mp hline with h | h
  · rcases List.mem_append.mp h with h2 | h2
    · rcases List.mem_append.mp h2 with h3 | h3
      · rw [List.mem_singleton] at h3
        subst h3
        exact Or.inl ⟨'-', aline.data, by simp, hminus, ha⟩
      · split at h3
        · rw [List.mem_singleton] at h3
          subst h3
          exact Or.inr ⟨_, hq _,
            rstrip_breakFree _ (keep_ws_breakFree _ _ ha hta)⟩
        · simp at h3
    · rw [List.mem_singleton] at h2
      subst h2
      exact Or.inl ⟨'+', bline.data, by simp, hplus, hb⟩
  · split at h
    · rw [List.mem_singleton] at h
      subst h
      exact Or.inr ⟨_, hq _,
        rstrip_breakFree _ (keep_ws_breakFree _ _ hb htb)⟩
    · simp at h

theorem intraline_linesOK (ae be : String) (ha : BreakFree ae)
    (hb : BreakFree be) : ∀ line ∈ intraline ae be, NdiffLineOK line := by
  intro line hline
  unfold intraline at hline
  have htags : ∀ (ops : List Opcode) (p : List Char × List Char),
      BreakFreeL p.1 → BreakFreeL p.2 →
      BreakFreeL (ops.foldl (fun (p : List Char × List Char) op =>
        let la := op.a2 - op.a1
        let lb := op.b2 - op.b1
        match op.tag with
        | .replace => (p.1 ++ List.replicate la '^', p.2 ++ List.replicate lb '^')
        | .delete => (p.1 ++ List.replicate la '-', p.2)
        | .insert => (p.1, p.2 ++ List.replicate lb '+')
        | .equal => (p.1 ++ List.replicate la ' ', p.2 ++ List.replicate lb ' '))
        p).1 ∧
      BreakFreeL (ops.foldl (fun (p : List Char × List Char) op =>
        let la := op.a2 - op.a1
        let lb := op.b2 - op.b1
        match op.tag with
        | .replace => (p.1 ++ List.replicate la '^', p.2 ++ List.replicate lb '^')
        | .delete => (p.1 ++ List.replicate la '-', p.2)
        | .insert => (p.1, p.2 ++ List.replicate lb '+')
        | .equal => (p.1 ++ List.replicate la ' ', p.2 ++ List.replicate lb ' '))
        p).2 := by
    intro ops
    induction ops with
    | nil => intro p h1 h2; exact ⟨h1, h2⟩
    | cons op rest ih =>
      intro p h1 h2
      simp only [List.foldl_cons]
      apply ih
      · rcases op with ⟨tag, a1, a2, b1, b2⟩
        cases tag <;>
          first
          | (intro c hc
             dsimp only at hc
             rcases List.mem_append.mp hc with h | h
             · exact h1 c h
             · rw [List.eq_of_mem_replicate h]
               decide)
          | exact h1
      · rcases op with ⟨tag, a1, a2, b1, b2⟩
        cases tag <;>
          first
          | (intro c hc
             dsimp only at hc
             rcases List.mem_append.mp hc with h | h
             · exact h2 c h
             · rw [List.eq_of_mem_replicate h]
               decide)
          | exact h2
  exact qformat_linesOK ae be _ _ ha hb
    (htags _ ([], []) (by intro c hc; simp at hc) (by intro c hc; simp at hc)).1
    (htags _ ([], []) (by intro c hc; simp at hc) (by intro c hc; simp at hc)).2
    line hline

theorem eqline_OK (a : List String) (ha : ∀ s ∈ a, BreakFree s) (i : Nat) :
    NdiffLineOK ("  " ++ a.getD i "") := by
  refine Or.inl ⟨' ', (a.getD i "").data, by simp, ?_, breakFree_getD a ha i⟩
  simp [String.data_append]

theorem fancy_linesOK : ∀ (fuel : Nat) (a : List String) (alo ahi : Nat)
    (b : List String) (blo bhi : Nat),
    (∀ s ∈ a, BreakFree s) → (∀ s ∈ b, BreakFree s) →
    (∀ line ∈ fancy_replace fuel a alo ahi b blo bhi, NdiffLineOK line) ∧
    (∀ line ∈ fancy_helper fuel a alo ahi b blo bhi, NdiffLineOK line) := by
  have hhelper : ∀ (fuel : Nat),
      (∀ (a : List String) (alo ahi : Nat) (b : List String) (blo bhi : Nat),
        (∀ s ∈ a, BreakFree s) → (∀ s ∈ b, BreakFree s) →
        ∀ line ∈ fancy_replace fuel a alo ahi b blo bhi, NdiffLineOK line) →
      ∀ (a : List String) (alo ahi : Nat) (b : List String) (blo bhi : Nat),
        (∀ s ∈ a, BreakFree s) → (∀ s ∈ b, BreakFree s) →
        ∀ line ∈ fancy_helper fuel a alo ahi b blo bhi, NdiffLineOK line := by
    intro fuel hrep a alo ahi b blo bhi ha hb line hline
    unfold fancy_helper at hline
    by_cases h1 : alo < ahi
    · rw [if_pos h1] at hline
      by_cases h2 : blo < bhi
      · rw [if_pos h2] at hline
        exact hrep a alo ahi b blo bhi ha hb line hline
      · rw [if_neg h2] at hline
        exact dump_linesOK '-' (by simp) a ha _ _ line hline
    · rw [if_neg h1] at hline
      by_cases h2 : blo < bhi
      · rw [if_pos h2] at hline
        exact dump_linesOK '+' (by simp) b hb _ _ line hline
      · rw [if_neg h2] at hline
        simp at hline
  intro fuel
  induction fuel with
  | zero =>
    have hrep : ∀ (a : List String) (alo ahi : Nat) (b : List String)
        (blo bhi : Nat),
        (∀ s ∈ a, BreakFree s) → (∀ s ∈ b, BreakFree s) →
        ∀ line ∈ fancy_replace 0 a alo ahi b blo bhi, NdiffLineOK line := by
      intro a alo ahi b blo bhi ha hb line hline
      rw [fancy_replace] at hline
      exact plain_linesOK a ha b hb _ _ _ _ line hline
    intro a alo ahi b blo bhi ha hb
    exact ⟨hrep a alo ahi b blo bhi ha hb,
      hhelper 0 hrep a alo ahi b blo bhi ha hb⟩
  | succ fuel ih =>
    have ihh : ∀ (a : List String) (alo ahi : Nat) (b : List String)
        (blo bhi : Nat),
        (∀ s ∈ a, BreakFree s) → (∀ s ∈ b, BreakFree s) →
        ∀ line ∈ fancy_helper fuel a alo ahi b blo bhi, NdiffLineOK line :=
      fun a alo ahi b blo bhi ha hb => (ih a alo ahi b blo bhi ha hb).2
    have hrep : ∀ (a : List String) (alo ahi : Nat) (b : List String)
        (blo bhi : Nat),
        (∀ s ∈ a, BreakFree s) → (∀ s ∈ b, BreakFree s) →
        ∀ line ∈ fancy_replace (fuel + 1) a alo ahi b blo bhi,
          NdiffLineOK line := by
      intro a alo ahi b blo bhi ha hb line hline
      rw [fancy_replace] at hline
      by_cases hcut : (fancyScan a alo ahi b blo bhi).best_ratio < 3 / 4
      · rw [if_pos hcut] at hline
        rcases he : (fancyScan a alo ahi b blo bhi).eqij with _ | p
        · rw [he] at hline
          exact plain_linesOK a ha b hb _ _ _ _ line hline
        · rcases p with ⟨eqi, eqj⟩
          rw [he] at hline
          rcases List.mem_append.mp hline with h | h
          · rcases List.mem_append.mp h with h2 | h2
            · exact ihh a alo eqi b blo eqj ha hb line h2
            · rw [List.mem_singleton] at h2
              subst h2
              exact eqline_OK a ha eqi
          · exact ihh a (eqi + 1) ahi b (eqj + 1) bhi ha hb line h
      · rw [if_neg hcut] at hline
        rcases List.mem_append.mp hline with h | h
        · rcases List.mem_append.mp h with h2 | h2
          · exact ihh a alo _ b blo _ ha hb line h2
          · exact intraline_linesOK _ _
              (breakFree_getD a ha _) (breakFree_getD b hb _) line h2
        · exact ihh a _ ahi b _ bhi ha hb line h
    intro a alo ahi b blo bhi ha hb
    exact ⟨hrep a alo ahi b blo bhi ha hb,
      hhelper (fuel + 1) hrep a alo ahi b blo bhi ha hb⟩

theorem compare_linesOK (a b : List String) (ha : ∀ s ∈ a, BreakFree s)
    (hb : ∀ s ∈ b, BreakFree s) : ∀ line ∈ compare a b, NdiffLineOK line := by
  intro line hline
  unfold compare at hline
  obtain ⟨op, _, hmem⟩ := List.mem_flatMap.mp hline
  rcases op with ⟨tag, a1, a2, b1, b2⟩
  cases tag with
  | replace =>
    exact (fancy_linesOK _ a a1 a2 b b1 b2 ha hb).1 line hmem
  | delete => exact dump_linesOK '-' (by simp) a ha _ _ line hmem
  | insert => exact dump_linesOK '+' (by simp) b hb _ _ line hmem
  | equal => exact dump_linesOK ' ' (by simp) a ha _ _ line hmem

theorem ndiff_linesOK (a b : List String) (ha : ∀ s ∈ a, BreakFree s)
    (hb : ∀ s ∈ b, BreakFree s) : ∀ line ∈ ndiff a b, NdiffLineOK line :=
  compare_linesOK a b ha hb

theorem restoreTag_cons (tag : List Char) (x : String) (L : List String) :
    restoreTag tag (x :: L) =
      (if x.data.take 2 = [' ', ' '] ∨ x.data.take 2 = tag then
        [String.mk (x.data.drop 2)] else []) ++ restoreTag tag L := by
  by_cases h : x.data.take 2 = [' ', ' '] ∨ x.data.take 2 = tag
  · rw [if_pos h]
    unfold restoreTag
    rw [List.filterMap_cons, if_pos h]
    rfl
  · rw [if_neg h]
    unfold restoreTag
    rw [List.filterMap_cons, if_neg h]
    rfl

/-- Joining `ndiff`-shaped lines with `"\n"` and re-splitting is invisible
to `restore`: the `"? "` hint lines (which carry an embedded newline) get
split into a trimmed hint line plus an empty line, and all of those are
filtered out by the tag filter anyway. -/
theorem restore_splitlines_transfer (tag : List Char)
    (htag : tag = ['+', ' '] ∨ tag = ['-', ' ']) :
    ∀ (items : List String), (∀ s ∈ items, NdiffLineOK s) →
    restoreTag tag (Py.splitlines (String.intercalate "\n" items)) =
      restoreTag tag items := by
  have hqdrop : ¬(['?', ' '] = [' ', ' '] ∨ ['?', ' '] = tag) := by
    rcases htag with rfl | rfl <;> decide
  have hempdrop : ¬(([] : List Char) = [' ', ' '] ∨ ([] : List Char) = tag) := by
    rcases htag with rfl | rfl <;> decide
  intro items
  induction items with
  | nil => intro _; rfl
  | cons x rest ih =>
    intro hok
    have hx := hok x (List.mem_cons_self x rest)
    have hrest : ∀ s ∈ rest, NdiffLineOK s :=
      fun s hs => hok s (List.mem_cons_of_mem x hs)
    cases rest with
    | nil =>
      have hone : String.intercalate "\n" [x] = x := rfl
      rw [hone]
      rcases hx with ⟨c, u, hc, hdata, hu⟩ | ⟨ts, hdata, hts⟩
      · have hbf : ∀ ch ∈ x.data, Py.isLineBreak ch = false := by
          rw [hdata]
          intro ch hch
          rcases List.mem_cons.mp hch with rfl | hch
          · rcases hc with rfl | rfl | rfl <;> decide
          rcases List.mem_cons.mp hch with rfl | hch
          · decide
          exact hu ch hch
        rw [Py.splitlines_nobreak x hbf]
        rw [if_neg (by rw [hdata]; simp)]
      · have hu : ∀ ch ∈ ('?' :: ' ' :: ts), Py.isLineBreak ch = false := by
          intro ch hch
          rcases List.mem_cons.mp hch with rfl | hch
          · decide
          rcases List.mem_cons.mp hch with rfl | hch
          · decide
          exact hts ch hch
        have hsplit : Py.splitlines x = [String.mk ('?' :: ' ' :: ts)] := by
          unfold Py.splitlines
          rw [hdata,
            show '?' :: ' ' :: (ts ++ ['\n']) =
              ('?' :: ' ' :: ts) ++ '\n' :: [] from by simp,
            Py.splitlinesAux_newline _ [] [] hu]
          rfl
        rw [hsplit, restoreTag_cons, restoreTag_cons]
        rw [if_neg (by simpa using hqdrop), if_neg (by rw [hdata]; simpa using hqdrop)]
    | cons y rest2 =>
      rw [Py.intercalate_cons_cons]
      rcases hx with ⟨c, u, hc, hdata, hu⟩ | ⟨ts, hdata, hts⟩
      · have hbf : ∀ ch ∈ x.data, Py.isLineBreak ch = false := by
          rw [hdata]
          intro ch hch
          rcases List.mem_cons.mp hch with rfl | hch
          · rcases hc with rfl | rfl | rfl <;> decide
          rcases List.mem_cons.mp hch with rfl | hch
          · decide
          exact hu ch hch
        rw [Py.splitlines_append_newline x _ hbf]
        rw [restoreTag_cons, restoreTag_cons, ih hrest]
      · have hu2 : ∀ ch ∈ ('?' :: ' ' :: ts), Py.isLineBreak ch = false := by
          intro ch hch
          rcases List.mem_cons.mp hch with rfl | hch
          · decide
          rcases List.mem_cons.mp hch with rfl | hch
          · decide
          exact hts ch hch
        have hd : (x ++ "\n" ++ String.intercalate "\n" (y :: rest2)).data =
            ('?' :: ' ' :: ts) ++
              '\n' :: ('\n' :: (String.intercalate "\n" (y :: rest2)).data) := by
          rw [String.data_append, String.data_append, hdata]
          simp
        have hsplit : Py.splitlines
            (x ++ "\n" ++ String.intercalate "\n" (y :: rest2)) =
            String.mk ('?' :: ' ' :: ts) :: String.mk [] ::
              Py.splitlines (String.intercalate "\n" (y :: rest2)) := by
          unfold Py.splitlines
          rw [hd, Py.splitlinesAux_newline _ [] _ hu2]
          have hnl : Py.splitlinesAux []
              ('\n' :: (String.intercalate "\n" (y :: rest2)).data) =
              [] :: Py.splitlinesAux []
                (String.intercalate "\n" (y :: rest2)).data := rfl
          rw [hnl]
          rfl
        rw [hsplit, restoreTag_cons, restoreTag_cons, restoreTag_cons]
        rw [if_neg (by simpa using hqdrop),
          if_neg (by simpa using hempdrop),
          if_neg (by rw [hdata]; simpa using hqdrop)]
        exact ih hrest

end Difflib

namespace DC

/-!
## Version-store lemmas
-/

theorem commitOk_baseText (sha : String → String) (now : String) (st : PageFS)
    (t a m : String) : (commitOk sha now st t a m).baseText = st.baseText := rfl

theorem commitOk_diffs_eq (sha : String → String) (now : String) (st : PageFS)
    (t a m : String) : (commitOk sha now st t a m).diffs =
      st.diffs ++ [(next_diff_index st.diffs, diff_text_of st t)] := rfl

theorem commitOk_diffCount (sha : String → String) (now : String) (st : PageFS)
    (t a m : String) :
    (commitOk sha now st t a m).meta.diffCount = st.meta.diffCount + 1 := rfl

theorem commitOk_version (sha : String → String) (now : String) (st : PageFS)
    (t a m : String) :
    (commitOk sha now st t a m).meta.version = st.meta.diffCount + 1 := rfl

theorem commitOk_rebuilt (sha : String → String) (now : String) (st : PageFS)
    (t a m : String) : (commitOk sha now st t a m).latestText =
      some (apply_diffs_to_text (commitOk sha now st t a m).baseText
        ((sorted_diffs (commitOk sha now st t a m).diffs).map Prod.snd)) := rfl

theorem foldl_max_range' : ∀ n : Nat, (List.range' 1 n).foldl max 0 = n := by
  intro n
  induction n with
  | zero => rfl
  | succ n ih =>
    rw [List.range'_concat 1 n, List.foldl_append, ih]
    simp only [List.foldl_cons, List.foldl_nil]
    omega

theorem next_diff_index_of_wf (ds : List (Nat × String)) (n : Nat)
    (h : ds.map Prod.fst = List.range' 1 n) : next_diff_index ds = n + 1 := by
  unfold next_diff_index
  by_cases hds : ds = []
  · rw [if_pos hds]
    subst hds
    simp only [List.map_nil] at h
    have : (List.range' 1 n).length = 0 := by rw [← h]; rfl
    rw [List.length_range'] at this
    omega
  · rw [if_neg hds, h, foldl_max_range']

theorem sorted_diffs_of_wf (ds : List (Nat × String)) (n : Nat)
    (h : ds.map Prod.fst = List.range' 1 n) : sorted_diffs ds = ds := by
  unfold sorted_diffs
  apply List.mergeSort_of_sorted
  have hpw : List.Pairwise (· ≤ ·) (ds.map Prod.fst) := by
    rw [h]
    have := List.pairwise_lt_range' 1 n 1 (by omega)
    exact this.imp (fun hab => Nat.le_of_lt hab)
  rw [List.pairwise_map] at hpw
  exact hpw.imp (fun hab => by simpa using hab)

theorem replay_diff (old t : String) :
    Difflib.restoreTag ['+', ' ']
      (Py.splitlines (String.intercalate "\n"
        (Difflib.ndiff (Py.splitlines old) (Py.splitlines t)))) =
      Py.splitlines t := by
  rw [Difflib.restore_splitlines_transfer ['+', ' '] (Or.inl rfl) _
    (Difflib.ndiff_linesOK _ _
      (fun s hs => Py.splitlines_breakFree old s hs)
      (fun s hs => Py.splitlines_breakFree t s hs))]
  exact (Difflib.compare_roundtrip _ _).1

theorem apply_diffs_nil (b : String) : apply_diffs_to_text b [] = normText b := rfl

theorem apply_diffs_concat (b : String) (ds : List String) (d : String) :
    apply_diffs_to_text b (ds ++ [d]) =
      String.intercalate "\n" (Difflib.restoreTag ['+', ' '] (Py.splitlines d)) ++
        (if Difflib.restoreTag ['+', ' '] (Py.splitlines d) ≠ [] then "\n"
         else "") := by
  unfold apply_diffs_to_text
  rw [List.foldl_append]
  rfl

theorem commitOk_latest (sha : String → String) (now : String) (st : PageFS)
    (t a m : String)
    (hwf : st.diffs.map Prod.fst = List.range' 1 st.meta.diffCount) :
    (commitOk sha now st t a m).latestText = some (normText t) := by
  rw [commitOk_rebuilt, commitOk_baseText, commitOk_diffs_eq]
  have hwf' : (st.diffs ++ [(next_diff_index st.diffs, diff_text_of st t)]).map
      Prod.fst = List.range' 1 (st.meta.diffCount + 1) := by
    rw [List.map_append, hwf, next_diff_index_of_wf _ _ hwf,
      List.range'_concat 1 st.meta.diffCount]
    simp only [List.map_cons, List.map_nil]
    norm_num
    omega
  rw [sorted_diffs_of_wf _ _ hwf', List.map_append]
  rw [show ([(next_diff_index st.diffs, diff_text_of st t)].map Prod.snd) =
    [diff_text_of st t] from rfl]
  rw [apply_diffs_concat]
  unfold diff_text_of
  rw [replay_diff]
  rfl

theorem diffs_append_wf (st : PageFS) (d : String)
    (hwf : st.diffs.map Prod.fst = List.range' 1 st.meta.diffCount) :
    (st.diffs ++ [(next_diff_index st.diffs, d)]).map Prod.fst =
      List.range' 1 (st.meta.diffCount + 1) := by
  rw [List.map_append, hwf, next_diff_index_of_wf _ _ hwf,
    List.range'_concat 1 st.meta.diffCount]
  simp only [List.map_cons, List.map_nil]
  norm_num
  omega

theorem commitOk_wf (sha : String → String) (now : String) (st : PageFS)
    (t a m : String)
    (hwf : st.diffs.map Prod.fst = List.range' 1 st.meta.diffCount) :
    (commitOk sha now st t a m).diffs.map Prod.fst =
      List.range' 1 (commitOk sha now st t a m).meta.diffCount := by
  rw [commitOk_diffs_eq, commitOk_diffCount]
  exact diffs_append_wf st _ hwf

theorem chainState_cons (sha : String → String) (st0 : PageFS) (c : Commit)
    (cs : List Commit) : chainState sha st0 (c :: cs) =
      chainState sha (commitOk sha c.1 st0 c.2.1 c.2.2.1 c.2.2.2) cs := rfl

theorem chainState_append (sha : String → String) :
    ∀ (cs1 cs2 : List Commit) (st0 : PageFS),
    chainState sha st0 (cs1 ++ cs2) =
      chainState sha (chainState sha st0 cs1) cs2 := by
  intro cs1
  induction cs1 with
  | nil => intro cs2 st0; rfl
  | cons c cs ih =>
    intro cs2 st0
    rw [List.cons_append, chainState_cons, chainState_cons]
    exact ih cs2 _

theorem chainState_wf (sha : String → String) :
    ∀ (cs : List Commit) (st0 : PageFS),
    st0.diffs.map Prod.fst = List.range' 1 st0.meta.diffCount →
    (chainState sha st0 cs).baseText = st0.baseText ∧
    (chainState sha st0 cs).meta.diffCount = st0.meta.diffCount + cs.length ∧
    (chainState sha st0 cs).diffs.map Prod.fst =
      List.range' 1 (st0.meta.diffCount + cs.length) := by
  intro cs
  induction cs with
  | nil => intro st0 h; exact ⟨rfl, rfl, by simpa using h⟩
  | cons c cs ih =>
    intro st0 h
    rw [chainState_cons]
    have hwf' := commitOk_wf sha c.1 st0 c.2.1 c.2.2.1 c.2.2.2 h
    obtain ⟨h1, h2, h3⟩ := ih (commitOk sha c.1 st0 c.2.1 c.2.2.1 c.2.2.2) hwf'
    refine ⟨by rw [h1, commitOk_baseText], ?_, ?_⟩
    · rw [h2, commitOk_diffCount]
      simp only [List.length_cons]
      omega
    · rw [h3, commitOk_diffCount]
      have : st0.meta.diffCount + 1 + cs.length =
          st0.meta.diffCount + (c :: cs).length := by
        simp only [List.length_cons]
        omega
      rw [this]

theorem chainState_diffs_prefix (sha : String → String) :
    ∀ (cs : List Commit) (st0 : PageFS),
    ∃ ext, (chainState sha st0 cs).diffs = st0.diffs ++ ext := by
  intro cs
  induction cs with
  | nil => intro st0; exact ⟨[], by simp [chainState]⟩
  | cons c cs ih =>
    intro st0
    obtain ⟨ext, hext⟩ := ih (commitOk sha c.1 st0 c.2.1 c.2.2.1 c.2.2.2)
    refine ⟨(next_diff_index st0.diffs, diff_text_of st0 c.2.1) :: ext, ?_⟩
    rw [chainState_cons, hext, commitOk_diffs_eq]
    simp

theorem commit_diff_ok_inv (sha : String → String) (now : String) (st : PageFS)
    (t a m : String) (st' : PageFS) (fname : String)
    (h : commit_diff sha now (some st) t a m = .ok (st', fname)) :
    st' = commitOk sha now st t a m := by
  unfold commit_diff at h
  simp only [Except.ok.injEq, Prod.mk.injEq] at h
  exact h.1.symm

theorem reached_wf (sha : String → String) :
    ∀ st : PageFS, Reached sha st →
      st.meta.version = st.meta.diffCount ∧
      st.diffs.map Prod.fst = List.range' 1 st.meta.diffCount ∧
      ∃ L, st.latestText = some L ∧ st.meta.latestHash = some (sha L) := by
  intro st h
  induction h with
  | init now title author genre base_text id_ =>
    exact ⟨rfl, rfl, base_text, rfl, rfl⟩
  | commit st st' now t a m fname hr hok ih =>
    obtain ⟨ih1, ih2, ih3⟩ := ih
    have hst' := commit_diff_ok_inv sha now st t a m st' fname hok
    subst hst'
    refine ⟨?_, commitOk_wf sha now st t a m ih2, ?_⟩
    · rw [commitOk_version, commitOk_diffCount]
    · exact ⟨_, commitOk_rebuilt sha now st t a m, rfl⟩
  | rebuild st now hr ih =>
    obtain ⟨ih1, ih2, ih3⟩ := ih
    exact ⟨ih1, ih2, _, rfl, rfl⟩

/-!
## Claim theorems for the version store
-/

/-- C3: `commit_diff(id, newText, author, message)` fails with `NotFound`
(`FileNotFoundError`) when the page directory does not exist; when it
exists, it persists the delta of the current latest text against `newText`
at the next sequence index, sets `diffCount` and `version` to
`diffCount + 1`, sets `latestHash` to `null` in the persisted metadata,
and returns the state rebuilt from that persisted state (whose
`latestHash` is consistent again), together with the diff file name. -/
theorem C3_commit_pipeline (sha : String → String)
    (now new_text author message : String) :
    commit_diff sha now none new_text author message =
      Except.error DCError.notFound ∧
    ∀ st : PageFS,
      (commit_persist sha now st new_text author message).1.diffs =
        st.diffs ++ [(next_diff_index st.diffs, diff_text_of st new_text)] ∧
      (commit_persist sha now st new_text author message).1.meta.diffCount =
        st.meta.diffCount + 1 ∧
      (commit_persist sha now st new_text author message).1.meta.version =
        st.meta.diffCount + 1 ∧
      (commit_persist sha now st new_text author message).1.meta.latestHash =
        none ∧
      commit_diff sha now (some st) new_text author message =
        Except.ok (rebuild_latest sha now
            (commit_persist sha now st new_text author message).1,
          zero_pad (next_diff_index st.diffs) ++ ".diff") ∧
      ∃ L,
        (rebuild_latest sha now
            (commit_persist sha now st new_text author message).1).latestText =
          some L ∧
        (rebuild_latest sha now
            (commit_persist sha now st new_text author message).1).meta.latestHash
          = some (sha L) :=
  ⟨rfl, fun _ => ⟨rfl, rfl, rfl, rfl, rfl, _, rfl, rfl⟩⟩

/-- C5: `rebuild_latest` is idempotent and does not mutate the delta chain:
a second rebuild with no intervening commit yields byte-identical latest
text and an unchanged `latestHash`, and a rebuild leaves the diff files and
their sidecars untouched. -/
theorem C5_rebuild_idempotent (sha : String → String) (now now' : String)
    (st : PageFS) :
    (rebuild_latest sha now' (rebuild_latest sha now st)).latestText =
      (rebuild_latest sha now st).latestText ∧
    (rebuild_latest sha now' (rebuild_latest sha now st)).meta.latestHash =
      (rebuild_latest sha now st).meta.latestHash ∧
    (rebuild_latest sha now st).diffs = st.diffs ∧
    (rebuild_latest sha now st).diffMetas = st.diffMetas :=
  ⟨rfl, rfl, rfl, rfl⟩

/-- C7: the source's `init_page` performs no existence check for a supplied
id: on a page directory that already exists it silently overwrites
`base.md`, `latest.md` and `meta.json` with the fresh content (only stray
`diffs/` payloads survive) instead of failing with `AlreadyExists` — its
result does not depend on the prior state except through `diffs`, and no
error is ever surfaced. -/
theorem C7_init_overwrites (sha : String → String)
    (now title author genre base_text id_ : String) (prior : PageFS) :
    (init_page sha now title author genre base_text id_ (some prior)).baseText
      = base_text ∧
    (init_page sha now title author genre base_text id_ (some prior)).latestText
      = some base_text ∧
    (init_page sha now title author genre base_text id_ (some prior)).meta =
      (init_page sha now title author genre base_text id_ none).meta :=
  ⟨rfl, rfl, rfl⟩

/-- C10: when the page directory exists but `latest.md` is absent,
`commit_diff` does not fail: the old side of the diff falls back to
`base.md`, so the committed delta is the `ndiff` of the base text against
the new text. -/
theorem C10_commit_base_fallback (sha : String → String)
    (now new_text author message : String) (st : PageFS)
    (h : st.latestText = none) :
    ∃ st' : PageFS,
      commit_diff sha now (some st) new_text author message =
        Except.ok (st', zero_pad (next_diff_index st.diffs) ++ ".diff") ∧
      st'.diffs = st.diffs ++ [(next_diff_index st.diffs,
        String.intercalate "\n" (Difflib.ndiff (Py.splitlines st.baseText)
          (Py.splitlines new_text)))] := by
  refine ⟨_, rfl, ?_⟩
  show st.diffs ++ [(next_diff_index st.diffs, diff_text_of st new_text)] = _
  unfold diff_text_of
  rw [h]
  rfl

/-- Witness for C10 at a concrete page directory with `latest.md` absent. -/
theorem C10_witness :
    (PageFS.mk "base" none [] []
        (Meta.mk "u" "t" "a" "g" "d" 0 "b" none 0 "c" "x")).latestText =
      none ∧
    ∃ st' : PageFS,
      commit_diff (fun s => s) "N"
          (some (PageFS.mk "base" none [] []
            (Meta.mk "u" "t" "a" "g" "d" 0 "b" none 0 "c" "x"))) "new" "au" "m"
        = Except.ok (st', zero_pad (next_diff_index
            (PageFS.mk "base" none [] []
              (Meta.mk "u" "t" "a" "g" "d" 0 "b" none 0 "c" "x")).diffs)
          ++ ".diff") ∧
      st'.diffs = (PageFS.mk "base" none [] []
          (Meta.mk "u" "t" "a" "g" "d" 0 "b" none 0 "c" "x")).diffs ++
        [(next_diff_index (PageFS.mk "base" none [] []
            (Meta.mk "u" "t" "a" "g" "d" 0 "b" none 0 "c" "x")).diffs,
          String.intercalate "\n" (Difflib.ndiff
            (Py.splitlines (PageFS.mk "base" none [] []
              (Meta.mk "u" "t" "a" "g" "d" 0 "b" none 0 "c" "x")).baseText)
            (Py.splitlines "new")))] :=
  ⟨rfl, C10_commit_base_fallback (fun s => s) "N" "new" "au" "m" _ rfl⟩

/-- C4: at every page state reachable through the public API the latest
text is present and `meta.latestHash = sha(latestText)` — in particular
after any successful rebuild, and the hash is never `null` at rest; any
rebuild of any state re-establishes the consistent pair; and in the window
inside `commit_diff` between delta persistence and the rebuild call the
persisted metadata carries `latestHash = null`. -/
theorem C4_hash_consistency (sha : String → String) (st : PageFS)
    (h : Reached sha st) :
    (∃ L, st.latestText = some L ∧ st.meta.latestHash = some (sha L)) ∧
    (∀ now : String, ∃ L,
      (rebuild_latest sha now st).latestText = some L ∧
      (rebuild_latest sha now st).meta.latestHash = some (sha L)) ∧
    (∀ now t a m : String,
      (commit_persist sha now st t a m).1.meta.latestHash = none) :=
  ⟨(reached_wf sha st h).2.2, fun _ => ⟨_, rfl, rfl⟩, fun _ _ _ _ => rfl⟩

/-- Witness for C4 at the concrete freshly initialised page. -/
theorem C4_witness :
    Reached (fun s => s)
      (init_page (fun s => s) "2026" "T" "A" "g" "body" "id1" none) ∧
    ((∃ L,
      (init_page (fun s => s) "2026" "T" "A" "g" "body" "id1" none).latestText
        = some L ∧
      (init_page (fun s => s) "2026" "T" "A" "g" "body" "id1"
        none).meta.latestHash = some ((fun s => s) L)) ∧
    (∀ now : String, ∃ L,
      (rebuild_latest (fun s => s) now
        (init_page (fun s => s) "2026" "T" "A" "g" "body" "id1"
          none)).latestText = some L ∧
      (rebuild_latest (fun s => s) now
        (init_page (fun s => s) "2026" "T" "A" "g" "body" "id1"
          none)).meta.latestHash = some ((fun s => s) L)) ∧
    (∀ now t a m : String,
      (commit_persist (fun s => s) now
        (init_page (fun s => s) "2026" "T" "A" "g" "body" "id1" none)
        t a m).1.meta.latestHash = none)) :=
  ⟨Reached.init "2026" "T" "A" "g" "body" "id1",
   C4_hash_consistency (fun s => s) _
     (Reached.init "2026" "T" "A" "g" "body" "id1")⟩

/-- C6: for every page produced by `init_page` and mutated only through
`commit_diff` (and rebuilds), `version = diffCount` after every operation,
and the on-disk delta indices are exactly the contiguous strictly
increasing sequence `1, 2, …, diffCount` (`List.range' 1 diffCount`). -/
theorem C6_version_and_indices (sha : String → String) (st : PageFS)
    (h : Reached sha st) :
    st.meta.version = st.meta.diffCount ∧
    st.diffs.map Prod.fst = List.range' 1 st.meta.diffCount :=
  ⟨(reached_wf sha st h).1, (reached_wf sha st h).2.1⟩

/-- Witness for C6 at the concrete freshly initialised page. -/
theorem C6_witness :
    Reached (fun s => s)
      (init_page (fun s => s) "2026" "T2" "A2" "g2" "text" "id2" none) ∧
    ((init_page (fun s => s) "2026" "T2" "A2" "g2" "text" "id2"
        none).meta.version =
      (init_page (fun s => s) "2026" "T2" "A2" "g2" "text" "id2"
        none).meta.diffCount ∧
    (init_page (fun s => s) "2026" "T2" "A2" "g2" "text" "id2"
        none).diffs.map Prod.fst =
      List.range' 1 (init_page (fun s => s) "2026" "T2" "A2" "g2" "text" "id2"
        none).meta.diffCount) :=
  ⟨Reached.init "2026" "T2" "A2" "g2" "text" "id2",
   C6_version_and_indices (fun s => s) _
     (Reached.init "2026" "T2" "A2" "g2" "text" "id2")⟩

/-!
## Claim theorems for the index & search layer
-/

/-- C8: `listPage` with a non-empty query does NOT return filtered results:
the source builds `WHERE title LIKE ? OR author LIKE ?` against
`pages_index`, which has no `title` column, so SQLite raises
`OperationalError("no such column: title")`.  With an empty query the items
are the table sorted by `DATE_CREATED` descending with `LIMIT`/`OFFSET`
applied, and the returned total is the full row count, independent of
`limit` and `offset`. -/
theorem C8_listPage (table : List IndexRow) (offset limit : Int)
    (query : String) (h : query ≠ "") :
    listPage table offset limit query =
      Except.error (SqlError.noSuchColumn "title") ∧
    ∀ off lim : Int,
      listPage table off lim "" =
        Except.ok (applyLimitOffset (sortByDateDesc table) lim off,
          table.length) ∧
      List.Pairwise (fun r s => s.dateCreated ≤ r.dateCreated)
        (sortByDateDesc table) := by
  constructor
  · unfold listPage
    rw [if_pos h]
    rfl
  · intro off lim
    constructor
    · unfold listPage
      rw [if_neg (by simp)]
    · have htrans : ∀ a b c : IndexRow,
          decide (b.dateCreated ≤ a.dateCreated) = true →
          decide (c.dateCreated ≤ b.dateCreated) = true →
          decide (c.dateCreated ≤ a.dateCreated) = true := by
        intro a b c h1 h2
        simp only [decide_eq_true_eq] at h1 h2 ⊢
        exact le_trans h2 h1
      have htotal : ∀ a b : IndexRow,
          (decide (b.dateCreated ≤ a.dateCreated) ||
            decide (a.dateCreated ≤ b.dateCreated)) = true := by
        intro a b
        simpa using le_total b.dateCreated a.dateCreated
      have hs := List.sorted_mergeSort htrans htotal table
      exact hs.imp (fun hab => by simpa using hab)

/-- Witness for C8 at a concrete query and table. -/
theorem C8_witness :
    ("x" : String) ≠ "" ∧
    (listPage [IndexRow.mk "u1" "g" "a" "2026" "p" "ab"] 0 10 "x" =
      Except.error (SqlError.noSuchColumn "title") ∧
    ∀ off lim : Int,
      listPage [IndexRow.mk "u1" "g" "a" "2026" "p" "ab"] off lim "" =
        Except.ok (applyLimitOffset
          (sortByDateDesc [IndexRow.mk "u1" "g" "a" "2026" "p" "ab"]) lim off,
          [IndexRow.mk "u1" "g" "a" "2026" "p" "ab"].length) ∧
      List.Pairwise (fun r s => s.dateCreated ≤ r.dateCreated)
        (sortByDateDesc [IndexRow.mk "u1" "g" "a" "2026" "p" "ab"])) :=
  ⟨by decide,
   C8_listPage [IndexRow.mk "u1" "g" "a" "2026" "p" "ab"] 0 10 "x" (by decide)⟩

/-- C9: the single-entry indexer `insertPage` is create-if-absent, not
update-if-present: when the uuid already has a row in `pages_index` the
table (including the stale preview) is left unchanged and the call still
returns `True`; whereas the bulk `indexToDB` walk upserts
(`ON CONFLICT(UUID) DO UPDATE`), replacing the existing row in place with
the freshly computed one. -/
theorem C9_insert_vs_upsert (pw : Nat) (table : List IndexRow)
    (pfx : String) (meta : Meta) (content : String)
    (h : table.any (fun r => decide (r.uuid = meta.uuid)) = true) :
    insertPage pw table pfx ⟨some meta, some content⟩ = (table, true) ∧
    upsertRow table (rowOf pw pfx meta content) =
      table.map (fun r => if r.uuid = meta.uuid then rowOf pw pfx meta content
        else r) ∧
    indexToDB pw table [(pfx, ⟨some meta, some content⟩)] =
      (table.map (fun r => if r.uuid = meta.uuid then rowOf pw pfx meta content
        else r), 1) := by
  have h2 : upsertRow table (rowOf pw pfx meta content) =
      table.map (fun r => if r.uuid = meta.uuid then rowOf pw pfx meta content
        else r) := by
    have h' : (table.any fun r =>
        decide (r.uuid = (rowOf pw pfx meta content).uuid)) = true := h
    unfold upsertRow
    rw [if_pos h']
    rfl
  refine ⟨?_, h2, ?_⟩
  · show (if table.any (fun r => decide (r.uuid = (rowOf pw pfx meta
        content).uuid)) then (table, true)
      else (table ++ [rowOf pw pfx meta content], true)) = (table, true)
    have h' : (table.any fun r =>
        decide (r.uuid = (rowOf pw pfx meta content).uuid)) = true := h
    rw [if_pos h']
  · show (upsertRow table (rowOf pw pfx meta content), 0 + 1) = _
    rw [h2]

/-- Witness for C9 at a concrete table already holding the uuid. -/
theorem C9_witness :
    [IndexRow.mk "u1" "g" "a" "2026" "old preview" "ab"].any
      (fun r => decide (r.uuid =
        (Meta.mk "u1" "T" "A2" "g2" "d" 0 "b" none 0 "c" "x").uuid)) = true ∧
    (insertPage 40 [IndexRow.mk "u1" "g" "a" "2026" "old preview" "ab"] "ab"
        ⟨some (Meta.mk "u1" "T" "A2" "g2" "d" 0 "b" none 0 "c" "x"),
         some "new content"⟩ =
      ([IndexRow.mk "u1" "g" "a" "2026" "old preview" "ab"], true) ∧
    upsertRow [IndexRow.mk "u1" "g" "a" "2026" "old preview" "ab"]
        (rowOf 40 "ab" (Meta.mk "u1" "T" "A2" "g2" "d" 0 "b" none 0 "c" "x")
          "new content") =
      [IndexRow.mk "u1" "g" "a" "2026" "old preview" "ab"].map
        (fun r => if r.uuid =
            (Meta.mk "u1" "T" "A2" "g2" "d" 0 "b" none 0 "c" "x").uuid then
          rowOf 40 "ab" (Meta.mk "u1" "T" "A2" "g2" "d" 0 "b" none 0 "c" "x")
            "new content"
        else r) ∧
    indexToDB 40 [IndexRow.mk "u1" "g" "a" "2026" "old preview" "ab"]
        [("ab", ⟨some (Meta.mk "u1" "T" "A2" "g2" "d" 0 "b" none 0 "c" "x"),
          some "new content"⟩)] =
      ([IndexRow.mk "u1" "g" "a" "2026" "old preview" "ab"].map
        (fun r => if r.uuid =
            (Meta.mk "u1" "T" "A2" "g2" "d" 0 "b" none 0 "c" "x").uuid then
          rowOf 40 "ab" (Meta.mk "u1" "T" "A2" "g2" "d" 0 "b" none 0 "c" "x")
            "new content"
        else r), 1)) :=
  ⟨by decide,
   C9_insert_vs_upsert 40 [IndexRow.mk "u1" "g" "a" "2026" "old preview" "ab"]
     "ab" (Meta.mk "u1" "T" "A2" "g2" "d" 0 "b" none 0 "c" "x") "new content"
     (by decide)⟩

/-- C2 (amended): for a page initialised with `init_page` and mutated by a
chain of commits `cs`, `view_version` at index `k` (for `1 ≤ k ≤ n`)
returns exactly the latest text as it existed immediately after the `k`-th
commit; for `k ≤ 0` it returns the base text in the canonical
trailing-newline normal form `normText` (NOT the verbatim base text); and
the rebuild performed by the last commit yields the last commit's `newText`
in that same normal form (NOT verbatim). -/
theorem C2_chain_integrity (sha : String → String)
    (now0 title author genre base id0 : String) (cs : List Commit)
    (k : Nat) (hk1 : 1 ≤ k) (hk2 : k ≤ cs.length) :
    (chainState sha (init_page sha now0 title author genre base id0 none)
        (cs.take k)).latestText =
      some (view_version
        (chainState sha (init_page sha now0 title author genre base id0 none)
          cs)
        (some (k : Int))) ∧
    (∀ j : Int, j ≤ 0 →
      view_version
        (chainState sha (init_page sha now0 title author genre base id0 none)
          cs)
        (some j) = normText base) ∧
    (∀ c : Commit,
      (chainState sha (init_page sha now0 title author genre base id0 none)
          (cs ++ [c])).latestText = some (normText c.2.1)) := by
  set st0 := init_page sha now0 title author genre base id0 none with hst0
  have wf0 : st0.diffs.map Prod.fst = List.range' 1 st0.meta.diffCount := rfl
  have hdc0 : st0.meta.diffCount = 0 := rfl
  have hbase0 : st0.baseText = base := rfl
  obtain ⟨hbN, hcN, hmN⟩ := chainState_wf sha cs st0 wf0
  have hmN' : (chainState sha st0 cs).diffs.map Prod.fst =
      List.range' 1 (chainState sha st0 cs).meta.diffCount := by
    rw [hmN, hcN]
  refine ⟨?_, ?_, ?_⟩
  · obtain ⟨hbk, hck, hmk⟩ := chainState_wf sha (cs.take k) st0 wf0
    have hlen_take : (cs.take k).length = k := by
      rw [List.length_take]
      omega
    have hklen : (chainState sha st0 (cs.take k)).diffs.length = k := by
      have hl := congrArg List.length hmk
      rw [List.length_map, List.length_range'] at hl
      rw [hl, hlen_take]
      omega
    have hsplit : chainState sha st0 cs =
        chainState sha (chainState sha st0 (cs.take k)) (cs.drop k) := by
      rw [← chainState_append, List.take_append_drop]
    obtain ⟨ext, hext⟩ := chainState_diffs_prefix sha (cs.drop k)
      (chainState sha st0 (cs.take k))
    have hdiffs : (chainState sha st0 cs).diffs =
        (chainState sha st0 (cs.take k)).diffs ++ ext := by
      rw [hsplit]
      exact hext
    have hneg : ¬((k : Int) ≤ 0) := by omega
    have hview : view_version (chainState sha st0 cs) (some (k : Int)) =
        apply_diffs_to_text (chainState sha st0 cs).baseText
          ((chainState sha st0 (cs.take k)).diffs.map Prod.snd) := by
      show apply_diffs_to_text (chainState sha st0 cs).baseText
        ((if (k : Int) ≤ 0 then []
          else (sorted_diffs (chainState sha st0 cs).diffs).take
            (k : Int).toNat).map Prod.snd) = _
      rw [if_neg hneg, sorted_diffs_of_wf _ _ hmN', Int.toNat_natCast,
        hdiffs, List.take_left' hklen]
    rw [hview]
    rcases List.eq_nil_or_concat (cs.take k) with hnil | ⟨L, c, hLc⟩
    · rw [hnil] at hlen_take
      simp at hlen_take
      omega
    · have hstk : chainState sha st0 (cs.take k) =
          commitOk sha c.1 (chainState sha st0 L) c.2.1 c.2.2.1 c.2.2.2 := by
        rw [hLc, List.concat_eq_append, chainState_append, chainState_cons]
        rfl
      have hwfk' : (chainState sha st0 (cs.take k)).diffs.map Prod.fst =
          List.range' 1 (chainState sha st0 (cs.take k)).meta.diffCount := by
        rw [hmk, hck]
      rw [hstk, commitOk_rebuilt sha c.1 (chainState sha st0 L) c.2.1
        c.2.2.1 c.2.2.2, ← hstk, sorted_diffs_of_wf _ _ hwfk', hbk, hbN]
  · intro j hj
    show apply_diffs_to_text (chainState sha st0 cs).baseText
      ((if j ≤ 0 then []
        else (sorted_diffs (chainState sha st0 cs).diffs).take
          j.toNat).map Prod.snd) = normText base
    rw [if_pos hj]
    show apply_diffs_to_text (chainState sha st0 cs).baseText [] = _
    rw [apply_diffs_nil, hbN, hbase0]
  · intro c
    rw [chainState_append, chainState_cons]
    show (commitOk sha c.1 (chainState sha st0 cs) c.2.1 c.2.2.1
      c.2.2.2).latestText = _
    exact commitOk_latest sha c.1 (chainState sha st0 cs) c.2.1 c.2.2.1
      c.2.2.2 hmN'

/-- Witness for C2 at a one-commit chain with `k = 1`. -/
theorem C2_witness :
    1 ≤ 1 ∧ 1 ≤ (([("N", "t2", "a2", "m2")] : List Commit)).length ∧
    ((chainState (fun s => s)
        (init_page (fun s => s) "T" "t" "a" "g" "b" "id" none)
        (([("N", "t2", "a2", "m2")] : List Commit).take 1)).latestText =
      some (view_version
        (chainState (fun s => s)
          (init_page (fun s => s) "T" "t" "a" "g" "b" "id" none)
          ([("N", "t2", "a2", "m2")] : List Commit))
        (some ((1 : Nat) : Int))) ∧
    (∀ j : Int, j ≤ 0 →
      view_version
        (chainState (fun s => s)
          (init_page (fun s => s) "T" "t" "a" "g" "b" "id" none)
          ([("N", "t2", "a2", "m2")] : List Commit))
        (some j) = normText "b") ∧
    (∀ c : Commit,
      (chainState (fun s => s)
          (init_page (fun s => s) "T" "t" "a" "g" "b" "id" none)
          (([("N", "t2", "a2", "m2")] : List Commit) ++ [c])).latestText =
        some (normText c.2.1))) :=
  ⟨le_refl 1, by decide,
   C2_chain_integrity (fun s => s) "T" "t" "a" "g" "b" "id"
     ([("N", "t2", "a2", "m2")] : List Commit) 1 (le_refl 1) (by decide)⟩

/-- Counterexample to the literal reading of C2: for base text `"a"`
(no trailing newline) and zero commits, `view_version` at index 0 yields
`"a\n"` — the trailing-newline normal form — whereas the latest text as it
existed after initialisation (and the base text) is `"a"` verbatim. -/
theorem C2_counterexample :
    view_version (init_page (fun s => s) "T" "t" "au" "g" "a" "id" none)
      (some 0) = "a\n" ∧
    (init_page (fun s => s) "T" "t" "au" "g" "a" "id" none).latestText =
      some "a" ∧
    (init_page (fun s => s) "T" "t" "au" "g" "a" "id" none).baseText = "a" ∧
    ("a\n" : String) ≠ "a" := by
  refine ⟨?_, rfl, rfl, by decide⟩
  show apply_diffs_to_text "a"
    ((if (0 : Int) ≤ 0 then []
      else (sorted_diffs (init_page (fun s => s) "T" "t" "au" "g" "a" "id"
        none).diffs).take (0 : Int).toNat).map Prod.snd) = "a\n"
  rw [if_pos (by omega)]
  rfl
